import Mathlib

set_option maxRecDepth 10000

/-!
# seQRets desktop crypto pipeline — formal model

A shallow embedding of the seQRets share-creation / secret-restoration
pipeline (`packages/desktop/src/lib/desktop-crypto.ts`) together with the
parts of the repository it calls that are not shipped with the TypeScript
sources: the native Rust crypto commands (`crypto_create`, `crypto_restore`,
`crypto_encrypt_blob`, `crypto_decrypt_blob`), the payload codec of
`@seqrets/crypto` (`buildSharePayload` / `parseSharePayload`) and the
threshold secret-sharing library.  Those missing parts are modelled from
the specification; every definition modelled that way carries a doc
comment starting with `Modelled from the spec:`.

Strings crossing the TypeScript boundary (share strings, salts in base64,
payload JSON) are modelled as lists of natural-number character codes /
bytes (`Str`), so that every operation is executable and decidable.
-/

/-- Character / byte strings are lists of natural-number codes. -/
abbrev Str := List Nat

/-- All entries of a list are genuine bytes (`< 256`). -/
def ByteOk (s : Str) : Prop := ∀ b ∈ s, b < 256

instance : DecidablePred ByteOk := fun s =>
  inferInstanceAs (Decidable (∀ b ∈ s, b < 256))

/-- Bytes of an optional string are genuine bytes. -/
def ByteOkO : Option Str → Prop
  | none => True
  | some s => ByteOk s

instance : DecidablePred ByteOkO := fun o => by
  cases o with
  | none => exact inferInstanceAs (Decidable True)
  | some s => exact inferInstanceAs (Decidable (ByteOk s))

/-! ## Length-prefixed framing (LEB128-style varint)

`Modelled from the spec:` the payload codec of `@seqrets/crypto` is not
under the provided sources; the spec (§4.1) requires "length-prefixed
framing so `expand` can split [payloads] back losslessly" and that
malformed framing is a decode error.  We use the standard base-128 varint
with a canonicity check, which makes the decoder a strict inverse. -/

/-- Fuel-driven worker for the varint encoder (structural recursion, so
that the kernel can evaluate it). -/
def encodeLenAux : Nat → Nat → Str
  | 0, n => [n % 128]
  | fuel + 1, n =>
    if n < 128 then [n] else (128 + n % 128) :: encodeLenAux fuel (n / 128)

/-- Base-128 varint encoding of a natural number (always bytes `< 256`). -/
def encodeLen (n : Nat) : Str := encodeLenAux n n

theorem encodeLenAux_irrel : ∀ (m fuel fuel' : Nat), m ≤ fuel → m ≤ fuel' →
    encodeLenAux fuel m = encodeLenAux fuel' m := by
  intro m
  induction m using Nat.strong_induction_on with
  | _ m ih =>
    intro fuel fuel' hf hf'
    cases fuel with
    | zero =>
      cases fuel' with
      | zero => rfl
      | succ f' =>
        have hm : m = 0 := by omega
        subst hm
        rfl
    | succ f =>
      cases fuel' with
      | zero =>
        have hm : m = 0 := by omega
        subst hm
        rfl
      | succ f' =>
        show (if m < 128 then [m] else (128 + m % 128) :: encodeLenAux f (m / 128)) =
          (if m < 128 then [m] else (128 + m % 128) :: encodeLenAux f' (m / 128))
        by_cases h : m < 128
        · rw [if_pos h, if_pos h]
        · rw [if_neg h, if_neg h]
          congr 1
          exact ih (m / 128) (Nat.div_lt_self (by omega) (by omega)) f f'
            (by omega) (by omega)

/-- The recursive unfolding of the varint encoder. -/
theorem encodeLen_eq (n : Nat) :
    encodeLen n = if n < 128 then [n] else (128 + n % 128) :: encodeLen (n / 128) := by
  cases n with
  | zero => rfl
  | succ k =>
    show (if k + 1 < 128 then [k + 1]
      else (128 + (k + 1) % 128) :: encodeLenAux k ((k + 1) / 128)) = _
    by_cases h : k + 1 < 128
    · rw [if_pos h, if_pos h]
    · rw [if_neg h, if_neg h]
      congr 1
      exact encodeLenAux_irrel ((k + 1) / 128) k ((k + 1) / 128) (by omega) (by omega)

/-- Strict varint decoder: returns the number and the remaining input,
rejecting non-canonical encodings. -/
def decodeLen : Str → Option (Nat × Str)
  | [] => none
  | b :: r =>
    if b < 128 then some (b, r)
    else if b < 256 then
      match decodeLen r with
      | some (m, r') => if 1 ≤ m then some (b - 128 + 128 * m, r') else none
      | none => none
    else none

theorem decodeLen_encodeLen (n : Nat) (rest : Str) :
    decodeLen (encodeLen n ++ rest) = some (n, rest) := by
  induction n using Nat.strong_induction_on with
  | _ n ih =>
    by_cases h : n < 128
    · rw [encodeLen_eq]
      simp [h, decodeLen]
    · rw [encodeLen_eq]
      simp only [h, if_false, List.cons_append]
      have hq : n / 128 < n := Nat.div_lt_self (by omega) (by omega)
      have hq1 : 1 ≤ n / 128 := by
        have : 128 ≤ n := by omega
        exact Nat.one_le_div_iff (by omega) |>.mpr this
      have hd : 128 + n % 128 ≥ 128 := by omega
      have hd2 : 128 + n % 128 < 256 := by
        have := Nat.mod_lt n (y := 128) (by omega)
        omega
      simp only [decodeLen, ih (n / 128) hq]
      rw [if_neg (by omega), if_pos hd2, if_pos hq1]
      have hmd : 128 + n % 128 - 128 + 128 * (n / 128) = n := by
        have := Nat.mod_add_div n 128
        omega
      rw [hmd]

theorem encodeLen_byteOk (n : Nat) : ByteOk (encodeLen n) := by
  induction n using Nat.strong_induction_on with
  | _ n ih =>
    by_cases h : n < 128
    · rw [encodeLen_eq]; simp only [h, if_true]
      intro b hb; simp at hb; omega
    · rw [encodeLen_eq]; simp only [h, if_false]
      intro b hb
      rcases List.mem_cons.mp hb with h1 | h2
      · have := Nat.mod_lt n (y := 128) (by omega); omega
      · exact ih (n / 128) (Nat.div_lt_self (by omega) (by omega)) b h2

/-- Strict decoders reconstruct their exact input (canonicity). -/
theorem decodeLen_inj {s : Str} {n : Nat} {rest : Str}
    (h : decodeLen s = some (n, rest)) : s = encodeLen n ++ rest := by
  induction s generalizing n rest with
  | nil => simp [decodeLen] at h
  | cons b r ih =>
    simp only [decodeLen] at h
    by_cases hb : b < 128
    · simp only [hb, if_true, Option.some.injEq, Prod.mk.injEq] at h
      obtain ⟨rfl, rfl⟩ := h
      rw [encodeLen_eq]; simp [hb]
    · simp only [hb, if_false] at h
      by_cases hb2 : b < 256
      · simp only [hb2, if_true] at h
        cases hr : decodeLen r with
        | none => rw [hr] at h; exact absurd h (by simp)
        | some p =>
          obtain ⟨m, r'⟩ := p
          rw [hr] at h
          simp only at h
          by_cases hm : 1 ≤ m
          · simp only [hm, if_true, Option.some.injEq, Prod.mk.injEq] at h
            obtain ⟨rfl, rfl⟩ := h
            have hrec := ih hr
            rw [encodeLen_eq]
            have hnl : ¬ (b - 128 + 128 * m < 128) := by omega
            simp only [hnl, if_false, List.cons_append]
            have e2 : (b - 128 + 128 * m) / 128 = m := by omega
            rw [e2, ← hrec]
            congr 1
            omega
          · simp [hm] at h
      · simp [hb2] at h

/-! ## Base64 (RFC 4648 alphabet)

The TypeScript layer calls `Buffer.toString('base64')` /
`Buffer.from(-, 'base64')`.  Encoding is the standard algorithm;
decoding is modelled leniently (ignoring non-alphabet characters, as
Node's `Buffer.from` does) and is a strict inverse on encoder output. -/

/-- Map a sextet (`< 64`) to its base64 alphabet character code. -/
def sextetToChar (s : Nat) : Nat :=
  if s < 26 then 65 + s
  else if s < 52 then 97 + (s - 26)
  else if s < 62 then 48 + (s - 52)
  else if s = 62 then 43
  else 47

/-- Partial inverse of the base64 alphabet. -/
def charToSextet (c : Nat) : Option Nat :=
  if 65 ≤ c ∧ c ≤ 90 then some (c - 65)
  else if 97 ≤ c ∧ c ≤ 122 then some (c - 97 + 26)
  else if 48 ≤ c ∧ c ≤ 57 then some (c - 48 + 52)
  else if c = 43 then some 62
  else if c = 47 then some 63
  else none

theorem charToSextet_sextetToChar {s : Nat} (h : s < 64) :
    charToSextet (sextetToChar s) = some s := by
  interval_cases s <;> rfl

theorem sextetToChar_ne_pipe (s : Nat) : sextetToChar s ≠ 124 := by
  unfold sextetToChar
  split <;> try omega
  split <;> try omega
  split <;> try omega
  split <;> omega

theorem sextetToChar_lt_256 (s : Nat) : sextetToChar s < 256 := by
  unfold sextetToChar
  split <;> try omega
  split <;> try omega
  split <;> try omega
  split <;> omega

/-- Base64-encode a byte list (with `=` padding, char code 61). -/
def b64encode : Str → Str
  | [] => []
  | [a] => [sextetToChar (a / 4), sextetToChar (a % 4 * 16), 61, 61]
  | [a, b] => [sextetToChar (a / 4), sextetToChar (a % 4 * 16 + b / 16),
               sextetToChar (b % 16 * 4), 61]
  | a :: b :: c :: rest =>
      sextetToChar (a / 4) :: sextetToChar (a % 4 * 16 + b / 16) ::
      sextetToChar (b % 16 * 4 + c / 64) :: sextetToChar (c % 64) ::
      b64encode rest

/-- Regroup a list of sextets into bytes (the tail of a lenient decoder). -/
def sextetsToBytes : List Nat → Str
  | s1 :: s2 :: s3 :: s4 :: rest =>
      (s1 * 4 + s2 / 16) :: (s2 % 16 * 16 + s3 / 4) ::
        (s3 % 4 * 64 + s4) :: sextetsToBytes rest
  | [s1, s2] => [s1 * 4 + s2 / 16]
  | [s1, s2, s3] => [s1 * 4 + s2 / 16, s2 % 16 * 16 + s3 / 4]
  | _ => []

/-- Lenient base64 decoding: non-alphabet characters (including padding)
are skipped, then sextets are regrouped into bytes. -/
def b64decodeL (s : Str) : Str :=
  sextetsToBytes (s.filterMap charToSextet)

theorem charToSextet_61 : charToSextet 61 = none := rfl

theorem b64_roundtrip : ∀ bs : Str, ByteOk bs → b64decodeL (b64encode bs) = bs
  | [], _ => rfl
  | [a], h => by
    have ha : a < 256 := h a (by simp)
    have h1 : charToSextet (sextetToChar (a / 4)) = some (a / 4) :=
      charToSextet_sextetToChar (by omega)
    have h2 : charToSextet (sextetToChar (a % 4 * 16)) = some (a % 4 * 16) :=
      charToSextet_sextetToChar (by omega)
    simp only [b64decodeL, b64encode, List.filterMap_cons, h1, h2, charToSextet_61,
      List.filterMap_nil, sextetsToBytes]
    have : a / 4 * 4 + a % 4 * 16 / 16 = a := by omega
    rw [this]
  | [a, b], h => by
    have ha : a < 256 := h a (by simp)
    have hb : b < 256 := h b (by simp)
    have h1 : charToSextet (sextetToChar (a / 4)) = some (a / 4) :=
      charToSextet_sextetToChar (by omega)
    have h2 : charToSextet (sextetToChar (a % 4 * 16 + b / 16)) =
        some (a % 4 * 16 + b / 16) :=
      charToSextet_sextetToChar (by omega)
    have h3 : charToSextet (sextetToChar (b % 16 * 4)) = some (b % 16 * 4) :=
      charToSextet_sextetToChar (by omega)
    simp only [b64decodeL, b64encode, List.filterMap_cons, h1, h2, h3, charToSextet_61,
      List.filterMap_nil, sextetsToBytes]
    have e1 : a / 4 * 4 + (a % 4 * 16 + b / 16) / 16 = a := by omega
    have e2 : (a % 4 * 16 + b / 16) % 16 * 16 + b % 16 * 4 / 4 = b := by omega
    rw [e1, e2]
  | a :: b :: c :: rest, h => by
    have ha : a < 256 := h a (by simp)
    have hb : b < 256 := h b (by simp)
    have hc : c < 256 := h c (by simp)
    have hrest : ByteOk rest := fun x hx => h x (by simp [hx])
    have h1 : charToSextet (sextetToChar (a / 4)) = some (a / 4) :=
      charToSextet_sextetToChar (by omega)
    have h2 : charToSextet (sextetToChar (a % 4 * 16 + b / 16)) =
        some (a % 4 * 16 + b / 16) :=
      charToSextet_sextetToChar (by omega)
    have h3 : charToSextet (sextetToChar (b % 16 * 4 + c / 64)) =
        some (b % 16 * 4 + c / 64) :=
      charToSextet_sextetToChar (by omega)
    have h4 : charToSextet (sextetToChar (c % 64)) = some (c % 64) :=
      charToSextet_sextetToChar (by omega)
    have ih := b64_roundtrip rest hrest
    simp only [b64decodeL, b64encode, List.filterMap_cons, h1, h2, h3, h4,
      sextetsToBytes] at ih ⊢
    have e1 : a / 4 * 4 + (a % 4 * 16 + b / 16) / 16 = a := by omega
    have e2 : (a % 4 * 16 + b / 16) % 16 * 16 + (b % 16 * 4 + c / 64) / 4 = b := by
      omega
    have e3 : (b % 16 * 4 + c / 64) % 4 * 64 + c % 64 = c := by omega
    rw [e1, e2, e3, ih]

theorem b64encode_no_pipe : ∀ bs : Str, 124 ∉ b64encode bs
  | [] => by simp [b64encode]
  | [a] => by
    simp only [b64encode, List.mem_cons, List.not_mem_nil, or_false]
    push_neg
    refine ⟨?_, ?_, by omega, by omega⟩ <;>
      exact fun hpipe => sextetToChar_ne_pipe _ hpipe.symm
  | [a, b] => by
    simp only [b64encode, List.mem_cons, List.not_mem_nil, or_false]
    push_neg
    refine ⟨?_, ?_, ?_, by omega⟩ <;>
      exact fun hpipe => sextetToChar_ne_pipe _ hpipe.symm
  | a :: b :: c :: rest => by
    simp only [b64encode, List.mem_cons]
    push_neg
    refine ⟨?_, ?_, ?_, ?_, b64encode_no_pipe rest⟩ <;>
      exact fun hpipe => sextetToChar_ne_pipe _ hpipe.symm

/-! ## Pipe-splitting

Models JavaScript `String.prototype.split('|')` on code lists: splits on
every occurrence of `'|'` (code 124), keeping empty fields. -/

def splitPipe : Str → List Str
  | [] => [[]]
  | c :: rest =>
    if c = 124 then [] :: splitPipe rest
    else
      match splitPipe rest with
      | [] => [[c]]
      | g :: gs => (c :: g) :: gs

theorem splitPipe_no_pipe : ∀ {s : Str}, 124 ∉ s → splitPipe s = [s]
  | [], _ => rfl
  | c :: rest, h => by
    have hc : c ≠ 124 := fun hq => h (by simp [hq])
    have hrest : (124 : Nat) ∉ rest := fun hq => h (by simp [hq])
    simp only [splitPipe, hc, if_false, splitPipe_no_pipe hrest]

theorem splitPipe_append_pipe {a : Str} (b : Str) (ha : 124 ∉ a) :
    splitPipe (a ++ 124 :: b) = a :: splitPipe b := by
  induction a with
  | nil => simp [splitPipe]
  | cons c rest ih =>
    have hc : c ≠ 124 := fun hq => ha (by simp [hq])
    have hrest : (124 : Nat) ∉ rest := fun hq => ha (by simp [hq])
    simp only [List.cons_append, splitPipe, hc, if_false, List.append_eq, ih hrest]

/-- Splitting a well-formed three-field share string. -/
theorem splitPipe_three {a b c : Str} (ha : 124 ∉ a) (hb : 124 ∉ b) (hc : 124 ∉ c) :
    splitPipe (a ++ 124 :: (b ++ 124 :: c)) = [a, b, c] := by
  rw [splitPipe_append_pipe _ ha, splitPipe_append_pipe _ hb, splitPipe_no_pipe hc]

/-! ## Threshold splitter over a finite field

`Modelled from the spec:` the threshold secret-sharing library
(`shamirs-secret-sharing-ts`) is not under the provided sources.  Spec
§4.5 fixes the construction: a linear scheme over a finite field applied
byte-wise, each share byte an evaluation of a degree-`(T-1)` polynomial
(constant term the secret byte) at the nonzero point given by the share
index, reconstruction by Lagrange interpolation, with rejection of
structurally invalid input (mismatched lengths, duplicate indices) and of
invalid `(N, T)` at split time.  The field is modelled as the prime field
`GF(257)` (the spec fixes only "a finite field"); since its elements can
exceed one byte, a field element is serialized into two bytes inside the
opaque share fragment. -/

abbrev F := ZMod 257

instance : Fact (Nat.Prime 257) := ⟨by norm_num⟩

/-- Evaluation of the byte-wise sharing polynomial
`s + c₀·x + … + c_{t-2}·x^{t-1}` (degree `< t`, constant term `s`). -/
def evalPoly (s : F) (c : Nat → F) (t : Nat) (x : F) : F :=
  s + x * ∑ k ∈ Finset.range (t - 1), c k * x ^ k

/-- Field inverse computed by Fermat's little theorem (kernel-evaluable,
unlike the extended-gcd `Inv` instance of `ZMod`). -/
def finv (x : F) : F := x ^ 255

theorem finv_eq_inv (x : F) : finv x = x⁻¹ := by
  unfold finv
  by_cases hx : x = 0
  · subst hx
    simp
  · have h1 : x ^ 256 = 1 := by
      have h := ZMod.pow_card_sub_one_eq_one (p := 257) hx
      norm_num at h
      exact h
    have h2 : x * x ^ 255 = 1 := by
      rw [← pow_succ']
      exact h1
    exact (inv_eq_of_mul_eq_one_right h2).symm

/-- Computable Lagrange interpolation of a list of points, evaluated at 0. -/
def lagrange0 (pts : List (F × F)) : F :=
  ∑ i : Fin pts.length,
    (pts.get i).2 *
      ∏ j ∈ Finset.univ.erase i,
        (finv ((pts.get i).1 - (pts.get j).1) * (0 - (pts.get j).1))

theorem lagrange0_eval (pts : List (F × F)) (p : Polynomial F)
    (hnd : (pts.map Prod.fst).Nodup)
    (hval : ∀ q ∈ pts, q.2 = p.eval q.1)
    (hdeg : p.degree < pts.length) :
    lagrange0 pts = p.eval 0 := by
  classical
  have hvinj : Function.Injective (fun i : Fin pts.length => (pts.get i).1) := by
    intro i j hij
    have hmap : ∀ k : Fin pts.length,
        (pts.map Prod.fst).get (Fin.cast (by simp) k) = (pts.get k).1 := by
      intro k
      simp [List.getElem_map]
    have := (List.nodup_iff_injective_get.mp hnd)
    have h2 := @this (Fin.cast (by simp) i) (Fin.cast (by simp) j)
      (by rw [hmap, hmap]; exact hij)
    simpa [Fin.ext_iff] using h2
  have hp : p = Lagrange.interpolate Finset.univ
      (fun i : Fin pts.length => (pts.get i).1) (fun i => (pts.get i).2) := by
    have h0 := Lagrange.eq_interpolate (s := (Finset.univ : Finset (Fin pts.length)))
      (v := fun i : Fin pts.length => (pts.get i).1) (f := p)
      hvinj.injOn (by simpa using hdeg)
    rw [h0]
    congr 1
    funext i
    exact (hval (pts.get i) (pts.get_mem i _)).symm
  rw [hp, Lagrange.interpolate_apply, Polynomial.eval_finset_sum]
  unfold lagrange0
  apply Finset.sum_congr rfl
  intro i _
  simp only [Polynomial.eval_mul, Polynomial.eval_C, Lagrange.basis, Lagrange.basisDivisor,
    Polynomial.eval_prod, Polynomial.eval_sub, Polynomial.eval_X, finv_eq_inv]

/-- Interpolating at zero recovers the secret byte from any list of
distinct evaluation points of length at least the threshold. -/
theorem lagrange0_evalPoly (s : F) (c : Nat → F) (t : Nat) (ht : 1 ≤ t)
    (xs : List F) (hnd : xs.Nodup) (hlen : t ≤ xs.length) :
    lagrange0 (xs.map (fun x => (x, evalPoly s c t x))) = s := by
  classical
  obtain ⟨m, rfl⟩ : ∃ m, t = m + 1 := ⟨t - 1, by omega⟩
  have heval : ∀ x : F,
      (∑ i : Fin (m + 1),
        Polynomial.C (if (i : ℕ) = 0 then s else c ((i : ℕ) - 1)) *
          Polynomial.X ^ (i : ℕ)).eval x = evalPoly s c (m + 1) x := by
    intro x
    rw [Polynomial.eval_finset_sum]
    simp only [Polynomial.eval_mul, Polynomial.eval_C, Polynomial.eval_pow,
      Polynomial.eval_X]
    rw [Fin.sum_univ_succ]
    have hsum : ∑ i : Fin m,
        (if ((i.succ : Fin (m + 1)) : ℕ) = 0 then s
          else c (((i.succ : Fin (m + 1)) : ℕ) - 1)) * x ^ ((i.succ : Fin (m + 1)) : ℕ)
        = ∑ i : Fin m, c i * x ^ ((i : ℕ) + 1) := by
      apply Finset.sum_congr rfl
      intro i _
      simp [Fin.val_succ]
    rw [hsum]
    simp only [Fin.val_zero, if_pos rfl, pow_zero, mul_one]
    unfold evalPoly
    congr 1
    simp only [Nat.add_sub_cancel]
    rw [Finset.mul_sum, Fin.sum_univ_eq_sum_range (fun k => c k * x ^ (k + 1)) m]
    apply Finset.sum_congr rfl
    intro k _
    ring
  have hdeg := Polynomial.degree_sum_fin_lt
    (fun i : Fin (m + 1) => if (i : ℕ) = 0 then s else c ((i : ℕ) - 1))
  have hmapfst : ((xs.map (fun x => (x, evalPoly s c (m + 1) x))).map Prod.fst) = xs := by
    simp [Function.comp_def]
  have h := lagrange0_eval (xs.map (fun x => (x, evalPoly s c (m + 1) x)))
    (∑ i : Fin (m + 1),
      Polynomial.C (if (i : ℕ) = 0 then s else c ((i : ℕ) - 1)) * Polynomial.X ^ (i : ℕ))
    (by rw [hmapfst]; exact hnd)
    (by
      intro q hq
      obtain ⟨x, hx, rfl⟩ := List.mem_map.mp hq
      exact (heval x).symm)
    (by
      rw [List.length_map]
      exact lt_of_lt_of_le hdeg (Nat.cast_le.mpr hlen))
  rw [h, heval 0]
  unfold evalPoly
  simp

/-- Serialize one field element as two bytes. -/
def encF (a : F) : Str := [a.val / 256, a.val % 256]

/-- Deserialize one field element from two bytes. -/
def decF (hi lo : Nat) : F := ((hi * 256 + lo : Nat) : F)

theorem decF_encF (a : F) : decF (a.val / 256) (a.val % 256) = a := by
  unfold decF
  have h := Nat.div_add_mod a.val 256
  rw [show a.val / 256 * 256 + a.val % 256 = a.val by omega]
  have hlt : a.val < 257 := a.val_lt
  apply ZMod.val_injective
  rw [ZMod.val_cast_of_lt hlt]

theorem encF_byteOk (a : F) : ByteOk (encF a) := by
  have hlt : a.val < 257 := a.val_lt
  intro b hb
  simp only [encF, List.mem_cons, List.not_mem_nil, or_false] at hb
  rcases hb with rfl | rfl
  · omega
  · omega

/-- Serialize a list of field elements. -/
def encFs : List F → Str
  | [] => []
  | a :: r => encF a ++ encFs r

/-- Deserialize a list of field elements (two bytes each). -/
def decFs : Str → Option (List F)
  | [] => some []
  | hi :: lo :: r => (decFs r).map (decF hi lo :: ·)
  | [_] => none

theorem decFs_encFs : ∀ l : List F, decFs (encFs l) = some l
  | [] => rfl
  | a :: r => by
    simp only [encFs, encF, List.cons_append, List.nil_append, List.append_eq, decFs,
      decFs_encFs r, Option.map_some', decF_encF]

theorem encFs_byteOk : ∀ l : List F, ByteOk (encFs l)
  | [] => by intro b hb; simp [encFs] at hb
  | a :: r => by
    intro b hb
    simp only [encFs] at hb
    rcases List.mem_append.mp hb with h1 | h2
    · exact encF_byteOk a b h1
    · exact encFs_byteOk r b h2

theorem encFs_length : ∀ l : List F, (encFs l).length = 2 * l.length
  | [] => rfl
  | a :: r => by simp [encFs, encF, encFs_length r]; omega

/-- Decode one share fragment: leading two bytes are the evaluation point
(share index), the rest the field elements of the share data. -/
def fragDecode : Str → Option (F × List F)
  | hi :: lo :: r => (decFs r).map (fun ys => (decF hi lo, ys))
  | _ => none

/-- The field elements of share number `i` (0-based): for every byte
position `m` of the buffer, the sharing polynomial of byte `m` evaluated
at the nonzero point `i + 1`. -/
def shareData (buf : Str) (T : Nat) (coeffs : Nat → Nat → F) (i : Nat) : List F :=
  (List.range buf.length).map (fun m =>
    evalPoly ((buf.getD m 0 : Nat) : F) (coeffs m) T ((i + 1 : Nat) : F))

/-- The opaque byte fragment of share number `i`: serialized evaluation
point followed by the serialized share data. -/
def shareFrag (buf : Str) (T : Nat) (coeffs : Nat → Nat → F) (i : Nat) : Str :=
  encF ((i + 1 : Nat) : F) ++ encFs (shareData buf T coeffs i)

/-- `Modelled from the spec:` the split half of the threshold library
(spec §4.5): validates the share configuration, then evaluates, for every
byte position, the sharing polynomial at points `1..N`. -/
def shamirSplitLib (buf : Str) (N T : Nat) (coeffs : Nat → Nat → F) :
    Except Unit (List Str) :=
  if 1 ≤ T ∧ T ≤ N ∧ N ≤ 255 then
    Except.ok ((List.range N).map (shareFrag buf T coeffs))
  else Except.error ()

/-- `Modelled from the spec:` the combine half of the threshold library
(spec §4.5): rejects structurally invalid input (undecodable fragments,
no shares, inconsistent lengths, duplicate indices), then reconstructs
each byte by Lagrange interpolation at zero. -/
def combinePts (pts : List (F × List F)) : Except Unit Str :=
  if pts ≠ [] ∧ (pts.map Prod.fst).Nodup ∧
      (∀ p ∈ pts, (p.2 : List F).length = (pts.headD (0, [])).2.length) then
    Except.ok ((List.range (pts.headD (0, [])).2.length).map (fun m =>
      (lagrange0 (pts.map (fun p => (p.1, p.2.getD m 0)))).val))
  else Except.error ()

def combineLib (frags : List Str) : Except Unit Str :=
  ((frags.mapM fragDecode).map combinePts).getD (Except.error ())

theorem getD_map_range {α : Type} (N : Nat) (f : Nat → α) (d : α) {i : Nat}
    (h : i < N) : ((List.range N).map f).getD i d = f i := by
  rw [List.getD_eq_getElem?_getD, List.getElem?_map, List.getElem?_range h]
  rfl

theorem map_range_getD (l : Str) :
    (List.range l.length).map (fun m => l.getD m 0) = l := by
  apply List.ext_getElem
  · simp
  · intro i h1 h2
    simp only [List.getElem_map, List.getElem_range]
    rw [List.getD_eq_getElem?_getD, List.getElem?_eq_getElem h2]
    rfl

theorem mapM_map_eq_some {α β γ : Type} {l : List α} (h : α → β) (f : β → Option γ)
    (g : α → γ) (hfg : ∀ x ∈ l, f (h x) = some (g x)) :
    (l.map h).mapM f = some (l.map g) := by
  induction l with
  | nil => rfl
  | cons a r ih =>
    simp only [List.map_cons, List.mapM_cons, hfg a (by simp),
      ih (fun x hx => hfg x (by simp [hx])), Option.pure_def, Option.bind_some]
    rfl

theorem fragDecode_shareFrag (buf : Str) (T : Nat) (coeffs : Nat → Nat → F)
    (i : Nat) :
    fragDecode (shareFrag buf T coeffs i) =
      some (((i + 1 : Nat) : F), shareData buf T coeffs i) := by
  unfold shareFrag
  simp only [encF, List.cons_append, List.nil_append, fragDecode,
    decFs_encFs, Option.map_some', decF_encF]

theorem shareData_length (buf : Str) (T : Nat) (coeffs : Nat → Nat → F) (i : Nat) :
    (shareData buf T coeffs i).length = buf.length := by
  simp [shareData]

/-- Reconstruction: combining any selection of at least `T` distinct shares
out of a successful `N`-way split recovers the exact input buffer. -/
theorem combineLib_shamirSplitLib (buf : Str) (hbuf : ByteOk buf) (N T : Nat)
    (coeffs : Nat → Nat → F) (frags : List Str)
    (hok : shamirSplitLib buf N T coeffs = Except.ok frags)
    (sel : List Nat) (hnd : sel.Nodup) (hmem : ∀ i ∈ sel, i < N)
    (hT : T ≤ sel.length) :
    combineLib (sel.map (fun i => frags.getD i [])) = Except.ok buf := by
  classical
  unfold shamirSplitLib at hok
  by_cases hvalid : 1 ≤ T ∧ T ≤ N ∧ N ≤ 255
  swap
  · rw [if_neg hvalid] at hok; exact absurd hok (by simp)
  rw [if_pos hvalid] at hok
  obtain ⟨hT1, hTN, hN255⟩ := hvalid
  have hfrags : frags = (List.range N).map (shareFrag buf T coeffs) :=
    (Except.ok.injEq _ _ ▸ hok).symm
  have hmapped : sel.map (fun i => frags.getD i []) =
      sel.map (shareFrag buf T coeffs) := by
    apply List.map_congr_left
    intro i hi
    rw [hfrags]
    exact getD_map_range N _ [] (hmem i hi)
  have hxinj : ∀ i ∈ sel, ∀ j ∈ sel,
      ((i + 1 : Nat) : F) = ((j + 1 : Nat) : F) → i = j := by
    intro i hi j hj hij
    have h1 : ((i + 1 : Nat) : F).val = i + 1 :=
      ZMod.val_cast_of_lt (by have := hmem i hi; omega)
    have h2 : ((j + 1 : Nat) : F).val = j + 1 :=
      ZMod.val_cast_of_lt (by have := hmem j hj; omega)
    have := congrArg ZMod.val hij
    rw [h1, h2] at this
    omega
  have hmapM : (sel.map (shareFrag buf T coeffs)).mapM fragDecode =
      some (sel.map (fun i => (((i + 1 : Nat) : F), shareData buf T coeffs i))) :=
    mapM_map_eq_some _ _ _ (fun i _ => fragDecode_shareFrag buf T coeffs i)
  have hgne : sel ≠ [] := by
    intro hnil
    rw [hnil] at hT
    simp at hT
    omega
  have hnodup : ((sel.map (fun i =>
      (((i + 1 : Nat) : F), shareData buf T coeffs i))).map Prod.fst).Nodup := by
    rw [List.map_map]
    have hcomp : (Prod.fst ∘ fun i : Nat =>
        (((i + 1 : Nat) : F), shareData buf T coeffs i)) =
        fun i : Nat => ((i + 1 : Nat) : F) := by
      funext i; rfl
    rw [hcomp]
    exact List.Nodup.map_on hxinj hnd
  obtain ⟨i0, sel', hsel⟩ : ∃ i0 sel', sel = i0 :: sel' := by
    cases sel with
    | nil => exact absurd rfl hgne
    | cons a l => exact ⟨a, l, rfl⟩
  have hhead : (sel.map (fun i =>
      (((i + 1 : Nat) : F), shareData buf T coeffs i))).headD ((0 : F), []) =
      (((i0 + 1 : Nat) : F), shareData buf T coeffs i0) := by
    rw [hsel]; rfl
  have hne : sel.map (fun i =>
      (((i + 1 : Nat) : F), shareData buf T coeffs i)) ≠ [] := by
    rw [hsel]; simp
  have hlens : ∀ p ∈ sel.map (fun i =>
      (((i + 1 : Nat) : F), shareData buf T coeffs i)),
      (p.2 : List F).length =
        ((sel.map (fun i =>
          (((i + 1 : Nat) : F), shareData buf T coeffs i))).headD
            ((0 : F), [])).2.length := by
    intro p hp
    obtain ⟨i, _, rfl⟩ := List.mem_map.mp hp
    rw [hhead]
    simp only [shareData_length]
  unfold combineLib
  rw [hmapped, hmapM]
  simp only [Option.map_some', Option.getD_some]
  unfold combinePts
  rw [if_pos ⟨hne, hnodup, hlens⟩]
  rw [hhead]
  have hcongr : ∀ m < buf.length,
      lagrange0 ((sel.map (fun i =>
        (((i + 1 : Nat) : F), shareData buf T coeffs i))).map
          (fun p => (p.1, p.2.getD m 0))) = ((buf.getD m 0 : Nat) : F) := by
    intro m hm
    rw [List.map_map]
    have heq : ((fun p : F × List F => (p.1, p.2.getD m 0)) ∘ fun i =>
        (((i + 1 : Nat) : F), shareData buf T coeffs i)) =
        (fun x : F => (x, evalPoly ((buf.getD m 0 : Nat) : F) (coeffs m) T x)) ∘
          (fun i : Nat => ((i + 1 : Nat) : F)) := by
      funext i
      simp only [Function.comp_apply, Prod.mk.injEq, true_and, shareData]
      exact getD_map_range buf.length _ 0 hm
    rw [heq, ← List.map_map]
    apply lagrange0_evalPoly _ _ _ hT1
    · exact List.Nodup.map_on hxinj hnd
    · rw [List.length_map]; exact hT
  have hval256 : ∀ m < buf.length, buf.getD m 0 < 256 := by
    intro m hm
    rw [List.getD_eq_getElem?_getD, List.getElem?_eq_getElem hm]
    exact hbuf _ (List.getElem_mem hm)
  have hlen0 : (shareData buf T coeffs i0).length = buf.length := shareData_length _ _ _ _
  rw [show ((((i0 + 1 : Nat) : F), shareData buf T coeffs i0)).2 =
    shareData buf T coeffs i0 from rfl, hlen0]
  congr 1
  conv_rhs => rw [← map_range_getD buf]
  apply List.map_congr_left
  intro m hm
  rw [List.mem_range] at hm
  rw [hcongr m hm, ZMod.val_cast_of_lt (by have := hval256 m hm; omega)]

/-! ## Share-path cipher primitives

`Modelled from the spec:` the native Rust backend (`src-tauri/src/crypto.rs`,
not under the provided sources) implements §4.2–§4.4: gzip compression,
Argon2id key derivation (input material: password bytes with the keyfile
bytes appended, plus the 16-byte salt), and the XChaCha20-Poly1305 AEAD
(24-byte nonce, stream-cipher XOR, 16-byte tag over the ciphertext).
The primitives below are concrete deterministic stand-ins with the same
shapes: a keyed keystream XORed bytewise, and a 16-byte recomputed tag.
The compressor is modelled as a two-byte header plus identity body — the
spec fixes only that it is deterministic, invertible, and fails typed on
corrupt input. -/

theorem xor_lt_256 {a b : Nat} (ha : a < 256) (hb : b < 256) : a ^^^ b < 256 := by
  have h := Nat.bitwise_lt_two_pow (f := bne) (n := 8)
    (by simpa using ha) (by simpa using hb)
  simpa [HXor.hXor, Xor.xor, Nat.xor] using h

/-- A simple deterministic mixing fold used by the modelled primitives. -/
def mixFold (l : Str) : Nat :=
  let x := l.foldl (fun a b => a * 31 + b * b + b + 1) 7
  x + x / 257

/-- `Modelled from the spec:` Argon2id derivation (§4.3): a pure function of
(password ++ keyfile, salt) producing 32 bytes; the keyfile bytes are
appended to the password before derivation. -/
def derive (pw : Str) (kf : Option Str) (salt : Str) : Str :=
  (List.range 32).map (fun i => mixFold (((pw ++ kf.getD []) ++ salt) ++ [i]) % 256)

/-- Keystream byte `i` of the modelled stream cipher. -/
def ksByte (key nonce : Str) (i : Nat) : Nat :=
  (mixFold (key ++ nonce) + 97 * i) % 256

/-- XOR a buffer against the keystream (self-inverse). -/
def xorKs (key nonce : Str) (data : Str) : Str :=
  (List.range data.length).map (fun i => data.getD i 0 ^^^ ksByte key nonce i)

theorem xorKs_length (key nonce data : Str) :
    (xorKs key nonce data).length = data.length := by
  simp [xorKs]

theorem xorKs_xorKs (key nonce data : Str) :
    xorKs key nonce (xorKs key nonce data) = data := by
  unfold xorKs
  simp only [List.length_map, List.length_range]
  conv_rhs => rw [← map_range_getD data]
  apply List.map_congr_left
  intro i hi
  rw [List.mem_range] at hi
  rw [getD_map_range data.length _ 0 hi, Nat.xor_cancel_right]

theorem xorKs_byteOk (key nonce data : Str) (h : ByteOk data) :
    ByteOk (xorKs key nonce data) := by
  intro b hb
  obtain ⟨i, hi, rfl⟩ := List.mem_map.mp hb
  rw [List.mem_range] at hi
  apply xor_lt_256
  · rw [List.getD_eq_getElem?_getD, List.getElem?_eq_getElem hi]
    exact h _ (List.getElem_mem hi)
  · exact Nat.mod_lt _ (by omega)

/-- The modelled 16-byte authentication tag over (key, nonce, ciphertext). -/
def macBytes (key nonce ct : Str) : Str :=
  (List.range 16).map (fun i => mixFold ((key ++ (nonce ++ ct)) ++ [i]) % 256)

theorem macBytes_length (key nonce ct : Str) : (macBytes key nonce ct).length = 16 := by
  simp [macBytes]

theorem macBytes_byteOk (key nonce ct : Str) : ByteOk (macBytes key nonce ct) := by
  intro b hb
  obtain ⟨i, _, rfl⟩ := List.mem_map.mp hb
  exact Nat.mod_lt _ (by omega)

/-- `Modelled from the spec:` the payload codec (§4.2): deterministic
compression with a strict inverse; modelled as a gzip-style header plus
identity body. -/
def compress (data : Str) : Str := 31 :: 139 :: data

/-- Decompression; fails typed on input that is not codec output. -/
def decompress : Str → Except Unit Str
  | 31 :: 139 :: data => Except.ok data
  | _ => Except.error ()

theorem decompress_compress (data : Str) : decompress (compress data) = Except.ok data := rfl

theorem decompress_ok_inj {p : Str} {data : Str} (h : decompress p = Except.ok data) :
    p = compress data := by
  unfold decompress at h
  split at h
  · cases h; rfl
  · cases h

/-- Per-encryption randomness supplied to the modelled backend: fresh salt
and nonce material plus the per-byte-position coefficient tails of the
threshold split. -/
structure Randomness where
  salt : Str
  nonce : Str
  coeffs : Nat → Nat → F

/-- Normalize caller randomness into exactly 16 salt bytes. -/
def norm16 (s : Str) : Str := ((s ++ List.replicate 16 0).take 16).map (· % 256)

/-- Normalize caller randomness into exactly 24 nonce bytes. -/
def norm24 (s : Str) : Str := ((s ++ List.replicate 24 0).take 24).map (· % 256)

theorem norm16_length (s : Str) : (norm16 s).length = 16 := by
  simp [norm16]

theorem norm24_length (s : Str) : (norm24 s).length = 24 := by
  simp [norm24]

theorem norm16_byteOk (s : Str) : ByteOk (norm16 s) := by
  intro b hb
  obtain ⟨x, _, rfl⟩ := List.mem_map.mp hb
  exact Nat.mod_lt _ (by omega)

/-- `Modelled from the spec:` the native `crypto_create` command: gzip the
JSON payload, derive the key from password/keyfile/fresh salt, seal under
a fresh 24-byte nonce, and return the salt plus `nonce ‖ ciphertext ‖ tag`. -/
def rustCryptoCreate (jsonPayload : Str) (pw : Str) (kf : Option Str)
    (rand : Randomness) : Str × Str :=
  let salt := norm16 rand.salt
  let nonce := norm24 rand.nonce
  let key := derive pw kf salt
  let ct := xorKs key nonce (compress jsonPayload)
  (salt, nonce ++ (ct ++ macBytes key nonce ct))

/-- AEAD open (§4.4): parse `nonce ‖ ciphertext ‖ tag`, recompute the tag
and fail closed on any mismatch. -/
def aeadOpen (key : Str) (buf : Str) : Option Str :=
  if buf.length < 40 then none
  else
    let nonce := buf.take 24
    let rest := buf.drop 24
    let ct := rest.take (rest.length - 16)
    let tag := rest.drop (rest.length - 16)
    if macBytes key nonce ct = tag then some (xorKs key nonce ct) else none

theorem aeadOpen_seal (key nonce pt : Str) (hn : nonce.length = 24) :
    aeadOpen key (nonce ++ (xorKs key nonce pt ++ macBytes key nonce (xorKs key nonce pt)))
      = some pt := by
  unfold aeadOpen
  have hct := xorKs_length key nonce pt
  have hmac := macBytes_length key nonce (xorKs key nonce pt)
  have hlen : (nonce ++ (xorKs key nonce pt ++ macBytes key nonce (xorKs key nonce pt))).length
      = 24 + (pt.length + 16) := by
    simp [hn, hct, hmac]
  rw [if_neg (by omega)]
  have htake : (nonce ++ (xorKs key nonce pt ++
      macBytes key nonce (xorKs key nonce pt))).take 24 = nonce := by
    rw [← hn]
    exact List.take_left _ _
  have hdrop : (nonce ++ (xorKs key nonce pt ++
      macBytes key nonce (xorKs key nonce pt))).drop 24 =
      xorKs key nonce pt ++ macBytes key nonce (xorKs key nonce pt) := by
    rw [← hn]
    exact List.drop_left _ _
  have hrl : (xorKs key nonce pt ++ macBytes key nonce (xorKs key nonce pt)).length - 16
      = pt.length := by
    simp [hct, hmac]
  have htake2 : (xorKs key nonce pt ++ macBytes key nonce (xorKs key nonce pt)).take pt.length
      = xorKs key nonce pt := by
    rw [← hct]
    exact List.take_left _ _
  have hdrop2 : (xorKs key nonce pt ++ macBytes key nonce (xorKs key nonce pt)).drop pt.length
      = macBytes key nonce (xorKs key nonce pt) := by
    rw [← hct]
    exact List.drop_left _ _
  rw [htake, hdrop]
  simp only [hrl, htake2, hdrop2, if_true]
  rw [xorKs_xorKs]

/-- `Modelled from the spec:` the native `crypto_restore` command: decode
the salt, derive the key, open the sealed buffer and decompress; every
failure (bad salt, tag mismatch, corrupt compressed data) is the single
opaque authentication failure (§4.4, §6, §7). -/
def rustCryptoRestore (saltB64 : Str) (buf : Str) (pw : Str) (kf : Option Str) :
    Except Unit Str :=
  let salt := b64decodeL saltB64
  let key := derive pw kf salt
  match aeadOpen key buf with
  | some pt => decompress pt
  | none => Except.error ()

/-! ## Payload codec (`buildSharePayload` / `parseSharePayload`) -/

/-- Result of a successful restore: the secret string and its label. -/
structure RestoreSecretResult where
  secret : Str
  label : Option Str
deriving DecidableEq

/-- `Modelled from the spec:` `buildSharePayload` of `@seqrets/crypto` is
not under the provided sources.  Spec §4.1 requires a tagged,
length-prefix-framed encoding of the secret (with optional label) that
`parseSharePayload` inverts losslessly; mnemonic compaction is modelled
by the freeform branch of the tagged contract. -/
def buildSharePayload (secret : Str) (label : Option Str) : Str :=
  (match label with
   | none => [0]
   | some l => 1 :: (encodeLen l.length ++ l)) ++ (encodeLen secret.length ++ secret)

/-- `Modelled from the spec:` `parseSharePayload`: the strict inverse of
`buildSharePayload`; malformed or trailing data is a decode failure. -/
def parseSharePayload (p : Str) : Except Unit RestoreSecretResult :=
  match p with
  | 0 :: rest =>
    match decodeLen rest with
    | some (n, rest') =>
      if rest'.length = n then Except.ok ⟨rest', none⟩ else Except.error ()
    | none => Except.error ()
  | 1 :: rest =>
    match decodeLen rest with
    | some (ln, rest') =>
      if ln ≤ rest'.length then
        match decodeLen (rest'.drop ln) with
        | some (n, rest3) =>
          if rest3.length = n then Except.ok ⟨rest3, some (rest'.take ln)⟩
          else Except.error ()
        | none => Except.error ()
      else Except.error ()
    | none => Except.error ()
  | _ => Except.error ()

theorem parseSharePayload_build (secret : Str) (label : Option Str) :
    parseSharePayload (buildSharePayload secret label) =
      Except.ok ⟨secret, label⟩ := by
  cases label with
  | none =>
    simp only [buildSharePayload, List.cons_append, List.nil_append, parseSharePayload,
      decodeLen_encodeLen]
    simp
  | some l =>
    simp only [buildSharePayload, List.cons_append, List.append_assoc, parseSharePayload,
      decodeLen_encodeLen]
    have htk : (l ++ (encodeLen secret.length ++ secret)).take l.length = l :=
      List.take_left _ _
    have hdp : (l ++ (encodeLen secret.length ++ secret)).drop l.length =
        encodeLen secret.length ++ secret := List.drop_left _ _
    rw [if_pos (by simp), hdp, decodeLen_encodeLen]
    simp [htk]

theorem parseSharePayload_inj {p : Str} {r : RestoreSecretResult}
    (h : parseSharePayload p = Except.ok r) :
    p = buildSharePayload r.secret r.label := by
  cases p with
  | nil => exact absurd h (by simp [parseSharePayload])
  | cons b rest =>
    cases b with
    | zero =>
      simp only [parseSharePayload] at h
      split at h
      · rename_i n rest2 hd
        split at h
        · rename_i hl
          have hr := Except.ok.inj h
          subst hr
          simp only [buildSharePayload, List.cons_append, List.nil_append]
          rw [← hl] at hd
          rw [decodeLen_inj hd]
        · cases h
      · cases h
    | succ b1 =>
      cases b1 with
      | zero =>
        simp only [parseSharePayload] at h
        split at h
        · rename_i ln rest2 hd
          split at h
          · rename_i hln
            split at h
            · rename_i n rest3 hd2
              split at h
              · rename_i hl3
                have hr := Except.ok.inj h
                subst hr
                simp only [buildSharePayload, List.cons_append]
                rw [← hl3] at hd2
                have h2 := decodeLen_inj hd2
                have htl : (rest2.take ln).length = ln := List.length_take_of_le hln
                have hsplit : rest2 = rest2.take ln ++ rest2.drop ln :=
                  (List.take_append_drop ln rest2).symm
                rw [← htl] at hd
                rw [hsplit, h2] at hd
                have h3 := decodeLen_inj hd
                rw [h3]
                simp
                congr 1
                omega
              · cases h
            · cases h
          · cases h
        · cases h
      | succ b2 =>
        simp only [parseSharePayload] at h
        cases h

/-! ## Vault-path cipher primitives

`Modelled from the spec:` the native `crypto_encrypt_blob` /
`crypto_decrypt_blob` commands (§4.2–§4.4, §4.6) run the same
compress → derive → seal pipeline over a JSON string.  Here the KDF and
the authentication tag are modelled as ideal (collision-free) functions:
the computational collision resistance of Argon2id and Poly1305 is
expressed by injectivity, and the fixed 32-byte key / 16-byte tag sizes
are abstracted into single unbounded numbers.  This is the standard
idealization that makes "decrypting with any other password fails" a
theorem rather than a probabilistic statement. -/

/-- Pack a list of digits `< 256` into one number (injectively). -/
def packDigits (ds : Str) : Nat := ds.foldr (fun d acc => acc * 257 + d + 1) 0

theorem packDigits_inj : ∀ (a b : Str), ByteOk a → ByteOk b →
    packDigits a = packDigits b → a = b
  | [], [], _, _, _ => rfl
  | [], d :: r, _, hb, h => by
    exfalso
    simp only [packDigits, List.foldr_nil, List.foldr_cons] at h
    omega
  | d :: r, [], ha, _, h => by
    exfalso
    simp only [packDigits, List.foldr_nil, List.foldr_cons] at h
    omega
  | d :: r, e :: t, ha, hb, h => by
    simp only [packDigits, List.foldr_cons] at h
    have hd : d < 256 := ha d (by simp)
    have he : e < 256 := hb e (by simp)
    have hde : d = e ∧ (packDigits r) = (packDigits t) := by
      unfold packDigits
      constructor <;> omega
    obtain ⟨rfl, hrt⟩ := hde
    rw [packDigits_inj r t (fun x hx => ha x (by simp [hx]))
      (fun x hx => hb x (by simp [hx])) hrt]

theorem encodeLen_ne_nil (n : Nat) : encodeLen n ≠ [] := by
  rw [encodeLen_eq]
  split <;> simp

/-- Concatenate the self-delimiting varint encodings of a list of numbers. -/
def encLebs : Str → Str
  | [] => []
  | a :: r => encodeLen a ++ encLebs r

theorem encLebs_byteOk : ∀ l : Str, ByteOk (encLebs l)
  | [] => by intro b hb; simp [encLebs] at hb
  | a :: r => by
    intro b hb
    rcases List.mem_append.mp (by simpa [encLebs] using hb) with h1 | h2
    · exact encodeLen_byteOk a b h1
    · exact encLebs_byteOk r b h2

theorem encLebs_inj : ∀ (a b : Str), encLebs a = encLebs b → a = b
  | [], [], _ => rfl
  | [], x :: r, h => by
    exfalso
    simp only [encLebs] at h
    exact encodeLen_ne_nil x (List.append_eq_nil.mp h.symm).1
  | x :: r, [], h => by
    exfalso
    simp only [encLebs] at h
    exact encodeLen_ne_nil x (List.append_eq_nil.mp h).1
  | x :: r, y :: t, h => by
    simp only [encLebs] at h
    have h1 := decodeLen_encodeLen x (encLebs r)
    have h2 := decodeLen_encodeLen y (encLebs t)
    rw [h] at h1
    rw [h2] at h1
    simp only [Option.some.injEq, Prod.mk.injEq] at h1
    obtain ⟨rfl, hrt⟩ := h1
    rw [encLebs_inj r t hrt.symm]

/-- Injective encoding of an arbitrary byte/number list into one number. -/
def encodeList (l : Str) : Nat := packDigits (encLebs l)

theorem encodeList_inj {a b : Str} (h : encodeList a = encodeList b) : a = b :=
  encLebs_inj a b (packDigits_inj _ _ (encLebs_byteOk a) (encLebs_byteOk b) h)

/-- `Modelled from the spec:` the ideal Argon2id of the blob cipher: a pure
injective function of (password ++ keyfile, salt); key size abstracted. -/
def idealDerive (pw : Str) (kf : Option Str) (salt : Str) : Str :=
  [encodeList ((pw ++ kf.getD []) ++ salt)]

/-- `Modelled from the spec:` the ideal Poly1305 tag of the blob cipher:
collision-free in (key, nonce, ciphertext); tag size abstracted. -/
def idealTag (key nonce ct : Str) : Str :=
  [encodeList (key ++ (nonce ++ ct))]

theorem idealTag_length (key nonce ct : Str) : (idealTag key nonce ct).length = 1 := rfl

/-- Ideal-cipher open: parse `nonce ‖ ciphertext ‖ tag`, recompute the
tag, fail closed on mismatch. -/
def aeadOpenI (key : Str) (buf : Str) : Option Str :=
  if buf.length < 25 then none
  else
    let nonce := buf.take 24
    let rest := buf.drop 24
    let ct := rest.take (rest.length - 1)
    let tag := rest.drop (rest.length - 1)
    if idealTag key nonce ct = tag then some (xorKs key nonce ct) else none

theorem aeadOpenI_parts (key nonce body tag : Str) (hn : nonce.length = 24)
    (htag : tag.length = 1) :
    aeadOpenI key (nonce ++ (body ++ tag)) =
      if idealTag key nonce body = tag then some (xorKs key nonce body) else none := by
  unfold aeadOpenI
  have hlen : (nonce ++ (body ++ tag)).length = 24 + (body.length + 1) := by
    simp [hn, htag]
  rw [if_neg (by omega)]
  have htake : (nonce ++ (body ++ tag)).take 24 = nonce := by
    rw [← hn]; exact List.take_left _ _
  have hdrop : (nonce ++ (body ++ tag)).drop 24 = body ++ tag := by
    rw [← hn]; exact List.drop_left _ _
  have hrl : (body ++ tag).length - 1 = body.length := by simp [htag]
  have htake2 : (body ++ tag).take body.length = body := List.take_left _ _
  have hdrop2 : (body ++ tag).drop body.length = tag := List.drop_left _ _
  rw [htake, hdrop]
  simp only [hrl, htake2, hdrop2]

/-- `Modelled from the spec:` the native `crypto_encrypt_blob` command. -/
def rustEncryptBlobI (json : Str) (pw : Str) (kf : Option Str)
    (rand : Randomness) : Str × Str :=
  let salt := norm16 rand.salt
  let nonce := norm24 rand.nonce
  let key := idealDerive pw kf salt
  let ct := xorKs key nonce (compress json)
  (salt, nonce ++ (ct ++ idealTag key nonce ct))

/-- `Modelled from the spec:` the native `crypto_decrypt_blob` command:
derive, open, decompress; any failure is the single opaque
authentication failure. -/
def rustDecryptBlobI (salt : Str) (data : Str) (pw : Str) (kf : Option Str) :
    Except Unit Str :=
  let key := idealDerive pw kf salt
  match aeadOpenI key data with
  | some pt => decompress pt
  | none => Except.error ()

theorem rustDecryptBlobI_encryptBlobI (json pw : Str) (kf : Option Str)
    (rand : Randomness) :
    rustDecryptBlobI (rustEncryptBlobI json pw kf rand).1
      (rustEncryptBlobI json pw kf rand).2 pw kf = Except.ok json := by
  unfold rustDecryptBlobI rustEncryptBlobI
  simp only []
  rw [aeadOpenI_parts _ _ _ _ (norm24_length _) (idealTag_length _ _ _), if_pos rfl,
    xorKs_xorKs]
  exact decompress_compress json

theorem rustDecryptBlobI_wrong_password (json pw pw' : Str) (kf : Option Str)
    (rand : Randomness) (hne : pw' ≠ pw) :
    rustDecryptBlobI (rustEncryptBlobI json pw kf rand).1
      (rustEncryptBlobI json pw kf rand).2 pw' kf = Except.error () := by
  have hkeys : idealDerive pw' kf (norm16 rand.salt) ≠
      idealDerive pw kf (norm16 rand.salt) := by
    intro hk
    unfold idealDerive at hk
    simp only [List.cons.injEq, and_true] at hk
    have h1 := encodeList_inj hk
    have h2 := List.append_cancel_right h1
    have h3 := List.append_cancel_right h2
    exact hne h3
  have hdata : (rustEncryptBlobI json pw kf rand).2 =
      norm24 rand.nonce ++
        (xorKs (idealDerive pw kf (norm16 rand.salt)) (norm24 rand.nonce)
            (compress json) ++
          idealTag (idealDerive pw kf (norm16 rand.salt)) (norm24 rand.nonce)
            (xorKs (idealDerive pw kf (norm16 rand.salt)) (norm24 rand.nonce)
              (compress json))) := rfl
  have hsalt : (rustEncryptBlobI json pw kf rand).1 = norm16 rand.salt := rfl
  have hopen : aeadOpenI (idealDerive pw' kf (norm16 rand.salt))
      (rustEncryptBlobI json pw kf rand).2 = none := by
    rw [hdata, aeadOpenI_parts _ _ _ _ (norm24_length _) (idealTag_length _ _ _)]
    rw [if_neg]
    intro htag
    unfold idealTag at htag
    simp only [List.cons.injEq, and_true] at htag
    exact hkeys (List.append_cancel_right (encodeList_inj htag))
  simp only [rustDecryptBlobI]
  rw [hsalt, hopen]

/-! ## The TypeScript layer (`desktop-crypto.ts`)

Faithful translation of `createShares` / `restoreSecret` /
`encryptVault` / `decryptVault`.  Each `throw new Error(...)` of the
source is one constructor of `CErr`; the surrounding `try`/`catch`
blocks are `Except.mapError`, and uncaught propagation is `Except.bind`.
The base64 transport across the IPC boundary (the Rust side returns the
salt already base64-encoded; the TypeScript side re-encodes the combined
buffer) is applied at the boundary of the modelled native commands. -/

/-- One constructor per distinct `throw` site of `desktop-crypto.ts`
(plus the configuration error of `createShares` and the error thrown by
the split library). -/
inductive CErr
  /-- 'If total shares is 1, required shares must also be 1.' -/
  | configError
  /-- 'No shares provided.' -/
  | noShares
  /-- 'Invalid or corrupted share format.' -/
  | invalidShareFormat
  /-- 'Inconsistent salts found across shares. ...' -/
  | inconsistentSalts
  /-- 'Could not extract salt from shares.' -/
  | noSalt
  /-- 'Could not combine encrypted shares. ...' -/
  | combineError
  /-- 'Authentication failed. Please check your password, keyfile, and QR codes.'
  (the single opaque failure surfaced from the native restore). -/
  | authError
  /-- 'Failed to parse the decrypted payload. ...' -/
  | parseError
  /-- an error thrown by the threshold-split library (uncaught upstream). -/
  | splitError
deriving DecidableEq

structure CreateSharesRequest where
  secret : Str
  password : Str
  totalShares : Nat
  requiredShares : Nat
  label : Option Str
  keyfile : Option Str
deriving DecidableEq

structure CreateSharesResult where
  shares : List Str
  totalShares : Nat
  requiredShares : Nat
  label : Option Str
  setId : Str
deriving DecidableEq

structure RestoreSecretRequest where
  shares : List Str
  password : Str
  keyfile : Option Str
deriving DecidableEq

/-- The magic literal `seQRets` as character codes. -/
def magicStr : Str := [115, 101, 81, 82, 101, 116, 115]

/-- The type of the native create command (abstracted so that theorems can
state that a result does not depend on any cryptographic work). -/
def CryptoCreateFn : Type := Str → Str → Option Str → Randomness → Str × Str

/-- The type of the combine half of the threshold library. -/
def CombineFn : Type := List Str → Except Unit Str

/-- The type of the native restore command. -/
def RestoreFn : Type := Str → Str → Str → Option Str → Except Unit Str

instance {ε α : Type} [DecidableEq ε] [DecidableEq α] : DecidableEq (Except ε α) :=
  fun x y =>
  match x, y with
  | Except.ok a, Except.ok b =>
    if h : a = b then isTrue (by rw [h])
    else isFalse (by intro hq; cases hq; exact h rfl)
  | Except.ok _, Except.error _ => isFalse (by intro hq; cases hq)
  | Except.error _, Except.ok _ => isFalse (by intro hq; cases hq)
  | Except.error e, Except.error f =>
    if h : e = f then isTrue (by rw [h])
    else isFalse (by intro hq; cases hq; exact h rfl)

theorem except_bind_ok {ε α β : Type} (x : α) (f : α → Except ε β) :
    Except.bind (Except.ok x) f = f x := rfl

theorem except_bind_error {ε α β : Type} (e : ε) (f : α → Except ε β) :
    Except.bind (Except.error e) f = Except.error e := rfl

theorem except_mapError_ok {ε ε' α : Type} (x : α) (f : ε → ε') :
    Except.mapError f (Except.ok x) = Except.ok x := rfl

theorem except_mapError_error {ε ε' α : Type} (e : ε) (f : ε → ε') :
    Except.mapError f (Except.error e : Except ε α) = Except.error (f e) := rfl

theorem except_map_ok {ε α β : Type} (x : α) (f : α → β) :
    Except.map f (Except.ok x : Except ε α) = Except.ok (f x) := rfl

theorem except_map_error {ε α β : Type} (e : ε) (f : α → β) :
    Except.map f (Except.error e : Except ε α) = Except.error e := rfl

/-- `createShares` (desktop-crypto.ts, lines 51–87), parameterized by the
native create command: reject `total = 1 ∧ required ≠ 1`, build the JSON
payload, invoke the native create, Shamir-split the returned buffer, and
format each share as `seQRets|<salt_b64>|<share_b64>`; the `setId` is the
first 8 characters of the base64 salt. -/
def createSharesWith (cc : CryptoCreateFn) (req : CreateSharesRequest)
    (rand : Randomness) : Except CErr CreateSharesResult :=
  if req.totalShares = 1 ∧ req.requiredShares ≠ 1 then
    Except.error CErr.configError
  else
    let jsonPayload := buildSharePayload req.secret req.label
    let r := cc jsonPayload req.password req.keyfile rand
    let saltB64 := b64encode r.1
    Except.map
      (fun frags : List Str =>
        ⟨frags.map (fun f => magicStr ++ 124 :: (saltB64 ++ 124 :: b64encode f)),
          req.totalShares, req.requiredShares, req.label, saltB64.take 8⟩)
      ((shamirSplitLib r.2 req.totalShares req.requiredShares rand.coeffs).mapError
        (fun _ => CErr.splitError))

/-- `createShares` instantiated with the modelled native backend. -/
def createShares (req : CreateSharesRequest) (rand : Randomness) :
    Except CErr CreateSharesResult :=
  createSharesWith rustCryptoCreate req rand

/-- The share-validation loop of `restoreSecret` (lines 107–127): split
each share on `|`, require exactly 3 fields with the magic literal,
track the first salt and reject any later mismatch, and collect the
base64-decoded share fragments. -/
def parseSharesGo : List Str → Option Str → List Str → Except CErr (Str × List Str)
  | [], saltOpt, acc =>
    match saltOpt with
    | none => Except.error CErr.noSalt
    | some s => Except.ok (s, acc.reverse)
  | sh :: rest, saltOpt, acc =>
    if (splitPipe sh).length ≠ 3 ∨ (splitPipe sh).getD 0 [] ≠ magicStr then
      Except.error CErr.invalidShareFormat
    else
      if saltOpt.getD ((splitPipe sh).getD 1 []) ≠ (splitPipe sh).getD 1 [] then
        Except.error CErr.inconsistentSalts
      else
        parseSharesGo rest (some ((splitPipe sh).getD 1 []))
          (b64decodeL ((splitPipe sh).getD 2 []) :: acc)

/-- `restoreSecret` (desktop-crypto.ts, lines 100–159), parameterized by
the combine step and the native restore command: reject an empty share
list, validate/parse the shares, combine, decrypt natively, parse the
payload.  Each catch block maps its failure onto one `CErr`. -/
def restoreSecretWith (cf : CombineFn) (rf : RestoreFn)
    (req : RestoreSecretRequest) : Except CErr RestoreSecretResult :=
  if req.shares = [] then Except.error CErr.noShares
  else
    Except.bind (parseSharesGo req.shares none []) (fun pr =>
      Except.bind ((cf pr.2).mapError (fun _ => CErr.combineError)) (fun buffer =>
        Except.bind ((rf pr.1 buffer req.password req.keyfile).mapError
            (fun _ => CErr.authError)) (fun jsonPayload =>
          (parseSharePayload jsonPayload).mapError (fun _ => CErr.parseError))))

/-- `restoreSecret` instantiated with the modelled library and backend. -/
def restoreSecret (req : RestoreSecretRequest) : Except CErr RestoreSecretResult :=
  restoreSecretWith combineLib rustCryptoRestore req

/-- The persisted shape of an encrypted vault file
(`packages/crypto/src/types.ts`, lines 70–75). -/
structure EncryptedVaultFile where
  version : Nat
  encrypted : Bool
  salt : Str
  data : Str
deriving DecidableEq

/-- `encryptVault` (desktop-crypto.ts, lines 163–173): invoke the native
blob encryption with a `null` keyfile.  `Modelled from the spec:` the
caller that wraps the returned `{salt, data}` into the version-2
`EncryptedVaultFile` record is not under the provided sources; the shape
`{version: 2, encrypted: true, salt, data}` is fixed by the
`EncryptedVaultFile` type and spec §4.6. -/
def encryptVault (json : Str) (pw : Str) (rand : Randomness) : EncryptedVaultFile :=
  let r := rustEncryptBlobI json pw none rand
  ⟨2, true, r.1, r.2⟩

/-- `decryptVault` (desktop-crypto.ts, lines 175–186): invoke the native
blob decryption with a `null` keyfile; takes no keyfile parameter. -/
def decryptVault (salt : Str) (data : Str) (pw : Str) : Except Unit Str :=
  rustDecryptBlobI salt data pw none

/-- The share list of a create result (empty list on error). -/
def sharesOf (e : Except CErr CreateSharesResult) : List Str :=
  match e with
  | Except.ok r => r.shares
  | Except.error _ => []

/-- The set id of a create result (empty string on error). -/
def setIdOf (e : Except CErr CreateSharesResult) : Str :=
  match e with
  | Except.ok r => r.setId
  | Except.error _ => []

/-! ## Supporting lemmas about the orchestration layer -/

theorem magicStr_no_pipe : (124 : Nat) ∉ magicStr := by decide

/-- A share string as produced by `createShares` splits into its three fields. -/
theorem splitPipe_share {salt64 data64 : Str} (hs : 124 ∉ salt64) (hd : 124 ∉ data64) :
    splitPipe (magicStr ++ 124 :: (salt64 ++ 124 :: data64)) =
      [magicStr, salt64, data64] :=
  splitPipe_three magicStr_no_pipe hs hd

/-- A share string parses into exactly 3 pipe-delimited fields whose first
field is the magic literal (the validation of restoreSecret). -/
def WellFormedShare (s : Str) : Bool :=
  (splitPipe s).length == 3 && ((splitPipe s).getD 0 [] == magicStr)

/-- The salt field of a share string (second pipe-delimited field). -/
def saltFieldOf (s : Str) : Str := (splitPipe s).getD 1 []

/-- Checks the full produced-share shape: three fields, magic literal,
and the expected salt field. -/
def shareShapeOkWith (salt64 : Str) (s : Str) : Bool :=
  WellFormedShare s && (saltFieldOf s == salt64)

theorem wf_not_bad {s : Str} (h : WellFormedShare s = true) :
    ¬((splitPipe s).length ≠ 3 ∨ (splitPipe s).getD 0 [] ≠ magicStr) := by
  unfold WellFormedShare at h
  simp only [Bool.and_eq_true, beq_iff_eq] at h
  push_neg
  exact ⟨h.1, h.2⟩

theorem bad_of_not_wf {s : Str} (h : WellFormedShare s = false) :
    (splitPipe s).length ≠ 3 ∨ (splitPipe s).getD 0 [] ≠ magicStr := by
  unfold WellFormedShare at h
  simp only [Bool.and_eq_false_iff, beq_eq_false_iff_ne, ne_eq] at h
  rcases h with h | h
  · left; simpa using h
  · right; simpa using h

/-- A share failing the 3-field/magic check makes the validation loop throw
the format error immediately. -/
theorem parseSharesGo_bad (s : Str) (rest : List Str) (saltOpt : Option Str)
    (acc : List Str) (hbad : WellFormedShare s = false) :
    parseSharesGo (s :: rest) saltOpt acc = Except.error CErr.invalidShareFormat := by
  unfold parseSharesGo
  rw [if_pos (bad_of_not_wf hbad)]

/-- A well-formed share passes the format check and drives the loop by its
salt field. -/
theorem parseSharesGo_wf (s : Str) (rest : List Str) (saltOpt : Option Str)
    (acc : List Str) (hwf : WellFormedShare s = true) :
    parseSharesGo (s :: rest) saltOpt acc =
      if saltOpt.getD (saltFieldOf s) ≠ saltFieldOf s then
        Except.error CErr.inconsistentSalts
      else
        parseSharesGo rest (some (saltFieldOf s))
          (b64decodeL ((splitPipe s).getD 2 []) :: acc) := by
  conv_lhs => unfold parseSharesGo
  rw [if_neg (wf_not_bad hwf)]
  rfl

/-- If every share is well-formed and some share's salt differs from the
tracked salt, the loop throws the inconsistent-salts error. -/
theorem parseSharesGo_mismatch : ∀ (shares : List Str) (s0 : Str) (acc : List Str),
    (∀ s ∈ shares, WellFormedShare s = true) →
    (∃ s ∈ shares, saltFieldOf s ≠ s0) →
    parseSharesGo shares (some s0) acc = Except.error CErr.inconsistentSalts
  | [], s0, acc, _, hex => by simp at hex
  | sh :: rest, s0, acc, hwf, hex => by
    rw [parseSharesGo_wf sh rest _ acc (hwf sh (by simp))]
    by_cases hsalt : s0 = saltFieldOf sh
    · have hrec : ∃ s ∈ rest, saltFieldOf s ≠ s0 := by
        obtain ⟨s, hs, hne⟩ := hex
        rcases List.mem_cons.mp hs with rfl | hs2
        · exact absurd hsalt.symm hne
        · exact ⟨s, hs2, hne⟩
      rw [if_neg (by simpa using hsalt)]
      rw [← hsalt]
      exact parseSharesGo_mismatch rest s0 _ (fun s hs => hwf s (by simp [hs])) hrec
    · rw [if_pos (by simpa using fun hq : s0 = saltFieldOf sh => hsalt hq)]

/-- Parsing a batch of identically-salted produced shares collects all
decoded fragments. -/
theorem parseSharesGo_encoded (salt64 : Str) (hs : 124 ∉ salt64) :
    ∀ (datas : List Str) (acc : List Str), (∀ d ∈ datas, 124 ∉ d) →
    parseSharesGo (datas.map (fun d => magicStr ++ 124 :: (salt64 ++ 124 :: d)))
        (some salt64) acc =
      Except.ok (salt64, acc.reverse ++ datas.map b64decodeL)
  | [], acc, _ => by simp [parseSharesGo]
  | d :: ds, acc, hd => by
    have hsp : splitPipe (magicStr ++ 124 :: (salt64 ++ 124 :: d)) =
        [magicStr, salt64, d] := splitPipe_share hs (hd d (by simp))
    have hwf : WellFormedShare (magicStr ++ 124 :: (salt64 ++ 124 :: d)) = true := by
      unfold WellFormedShare
      rw [hsp]
      simp
    rw [List.map_cons, parseSharesGo_wf _ _ _ _ hwf]
    have hsf : saltFieldOf (magicStr ++ 124 :: (salt64 ++ 124 :: d)) = salt64 := by
      unfold saltFieldOf
      rw [hsp]
      rfl
    have hd2 : (splitPipe (magicStr ++ 124 :: (salt64 ++ 124 :: d))).getD 2 [] = d := by
      rw [hsp]
      rfl
    rw [hsf, hd2, if_neg (by simp)]
    rw [parseSharesGo_encoded salt64 hs ds _ (fun x hx => hd x (by simp [hx]))]
    simp

theorem parseSharesGo_encoded_start (salt64 : Str) (hs : 124 ∉ salt64)
    (d0 : Str) (ds : List Str) (hd : ∀ d ∈ d0 :: ds, 124 ∉ d) :
    parseSharesGo
        ((d0 :: ds).map (fun d => magicStr ++ 124 :: (salt64 ++ 124 :: d))) none [] =
      Except.ok (salt64, (d0 :: ds).map b64decodeL) := by
  have hsp : splitPipe (magicStr ++ 124 :: (salt64 ++ 124 :: d0)) =
      [magicStr, salt64, d0] := splitPipe_share hs (hd d0 (by simp))
  have hwf : WellFormedShare (magicStr ++ 124 :: (salt64 ++ 124 :: d0)) = true := by
    unfold WellFormedShare
    rw [hsp]
    simp
  rw [List.map_cons, parseSharesGo_wf _ _ _ _ hwf]
  have hsf : saltFieldOf (magicStr ++ 124 :: (salt64 ++ 124 :: d0)) = salt64 := by
    unfold saltFieldOf
    rw [hsp]
    rfl
  have hd2 : (splitPipe (magicStr ++ 124 :: (salt64 ++ 124 :: d0))).getD 2 [] = d0 := by
    rw [hsp]
    rfl
  rw [hsf, hd2, if_neg (by simp)]
  rw [parseSharesGo_encoded salt64 hs ds _ (fun x hx => hd x (by simp [hx]))]
  simp

/-- Inversion of a successful `createShares`: the exact result record and
the validity bounds of the share configuration. -/
theorem createShares_ok_shape (req : CreateSharesRequest) (rand : Randomness)
    (hok : (createShares req rand).isOk = true) :
    createShares req rand = Except.ok
      ⟨((List.range req.totalShares).map
          (shareFrag (rustCryptoCreate (buildSharePayload req.secret req.label)
            req.password req.keyfile rand).2 req.requiredShares rand.coeffs)).map
        (fun f => magicStr ++ 124 ::
          (b64encode (norm16 rand.salt) ++ 124 :: b64encode f)),
        req.totalShares, req.requiredShares, req.label,
        (b64encode (norm16 rand.salt)).take 8⟩ ∧
    1 ≤ req.requiredShares ∧ req.requiredShares ≤ req.totalShares ∧
      req.totalShares ≤ 255 := by
  unfold createShares createSharesWith at hok ⊢
  by_cases hcfg : req.totalShares = 1 ∧ req.requiredShares ≠ 1
  · rw [if_pos hcfg] at hok
    exact Bool.noConfusion hok
  · rw [if_neg hcfg] at hok ⊢
    simp only [shamirSplitLib] at hok ⊢
    by_cases hval : 1 ≤ req.requiredShares ∧ req.requiredShares ≤ req.totalShares ∧
        req.totalShares ≤ 255
    · rw [if_pos hval] at hok ⊢
      exact ⟨rfl, hval⟩
    · rw [if_neg hval] at hok
      rw [except_mapError_error, except_map_error] at hok
      exact Bool.noConfusion hok

theorem compress_byteOk (d : Str) (h : ByteOk d) : ByteOk (compress d) := by
  intro b hb
  rcases List.mem_cons.mp hb with rfl | hb2
  · omega
  · rcases List.mem_cons.mp hb2 with rfl | hb3
    · omega
    · exact h b hb3

theorem buildSharePayload_byteOk (secret : Str) (label : Option Str)
    (hs : ByteOk secret) (hl : ByteOkO label) :
    ByteOk (buildSharePayload secret label) := by
  unfold buildSharePayload
  cases label with
  | none =>
    intro b hb
    rcases List.mem_append.mp hb with h1 | h2
    · simp only [List.mem_singleton] at h1
      omega
    · rcases List.mem_append.mp h2 with h3 | h4
      · exact encodeLen_byteOk _ b h3
      · exact hs b h4
  | some l =>
    intro b hb
    rcases List.mem_append.mp hb with h1 | h2
    · rcases List.mem_cons.mp h1 with rfl | h1b
      · omega
      · rcases List.mem_append.mp h1b with h3 | h4
        · exact encodeLen_byteOk _ b h3
        · exact hl b h4
    · rcases List.mem_append.mp h2 with h3 | h4
      · exact encodeLen_byteOk _ b h3
      · exact hs b h4

/-- The sealed buffer returned by the modelled native create is made of
genuine bytes whenever the payload is. -/
theorem rustCryptoCreate_byteOk (jsonPayload pw : Str) (kf : Option Str)
    (rand : Randomness) (hp : ByteOk jsonPayload) :
    ByteOk (rustCryptoCreate jsonPayload pw kf rand).2 := by
  intro b hb
  unfold rustCryptoCreate at hb
  simp only at hb
  rcases List.mem_append.mp hb with h1 | h2
  · obtain ⟨x, _, rfl⟩ := List.mem_map.mp h1
    exact Nat.mod_lt _ (by omega)
  · rcases List.mem_append.mp h2 with h3 | h4
    · exact xorKs_byteOk _ _ _ (compress_byteOk _ hp) b h3
    · exact macBytes_byteOk _ _ _ b h4

theorem shareFrag_byteOk (buf : Str) (T : Nat) (coeffs : Nat → Nat → F) (i : Nat) :
    ByteOk (shareFrag buf T coeffs i) := by
  intro b hb
  unfold shareFrag at hb
  rcases List.mem_append.mp hb with h1 | h2
  · exact encF_byteOk _ b h1
  · exact encFs_byteOk _ b h2

/-- The sealed buffer (`nonce ‖ ciphertext ‖ tag`) produced inside
`createShares` for a given request and randomness. -/
def sealedOf (req : CreateSharesRequest) (rand : Randomness) : Str :=
  (rustCryptoCreate (buildSharePayload req.secret req.label)
    req.password req.keyfile rand).2

/-! ## Claim theorems -/

/-- C9: `restoreSecret` called with an empty list of shares fails
immediately with the 'No shares provided' error; the result is the same
for every combine step and native backend, so no share parsing,
combination, or cryptography can have influenced it. -/
theorem c9_empty_shares_rejected (cf : CombineFn) (rf : RestoreFn) (pw : Str)
    (kf : Option Str) :
    restoreSecretWith cf rf ⟨[], pw, kf⟩ = Except.error CErr.noShares := by
  unfold restoreSecretWith
  rw [if_pos rfl]

/-- C6 counterexample: `createShares` with the invalid configuration
`total = 3, threshold = 5` (violating `T ≤ N`) is not rejected with the
configuration error: the failure surfaces as the split library's error,
after the native encryption call in program order. -/
theorem c6_counterexample :
    createShares ⟨[65], [97], 3, 5, none, none⟩ ⟨[], [], fun _ _ => 0⟩ =
      Except.error CErr.splitError ∧
    createShares ⟨[65], [97], 3, 5, none, none⟩ ⟨[], [], fun _ _ => 0⟩ ≠
      Except.error CErr.configError := by
  constructor
  · rfl
  · decide

/-- C6 (amended): `createShares` itself rejects only the
`total = 1 ∧ threshold ≠ 1` combination before any cryptographic work —
the configuration error is produced for every native backend `cc`, so no
cryptography influenced it.  Every other invalid `(N, T)` combination
(violating `1 ≤ T ≤ N`) is instead rejected by the threshold-split
library with a distinct error, which in program order happens after the
native encryption call. -/
theorem c6_invalid_config_rejected (cc : CryptoCreateFn) (req : CreateSharesRequest)
    (rand : Randomness) :
    (req.totalShares = 1 → req.requiredShares ≠ 1 →
      createSharesWith cc req rand = Except.error CErr.configError) ∧
    (¬(1 ≤ req.requiredShares ∧ req.requiredShares ≤ req.totalShares) →
      ¬(req.totalShares = 1 ∧ req.requiredShares ≠ 1) →
      createShares req rand = Except.error CErr.splitError) := by
  constructor
  · intro h1 h2
    unfold createSharesWith
    rw [if_pos ⟨h1, h2⟩]
  · intro h1 h2
    unfold createShares createSharesWith
    rw [if_neg h2]
    have hsplit : shamirSplitLib
        (rustCryptoCreate (buildSharePayload req.secret req.label)
          req.password req.keyfile rand).2
        req.totalShares req.requiredShares rand.coeffs = Except.error () := by
      unfold shamirSplitLib
      rw [if_neg]
      intro hc
      exact h1 ⟨hc.1, hc.2.1⟩
    simp only [hsplit, except_mapError_error, except_map_error]

theorem c6_witness :
    createSharesWith rustCryptoCreate ⟨[65], [97], 1, 2, none, none⟩
        ⟨[], [], fun _ _ => 0⟩ = Except.error CErr.configError ∧
    createShares ⟨[66], [98], 2, 0, none, none⟩ ⟨[], [], fun _ _ => 0⟩ =
      Except.error CErr.splitError :=
  ⟨(c6_invalid_config_rejected rustCryptoCreate ⟨[65], [97], 1, 2, none, none⟩
      ⟨[], [], fun _ _ => 0⟩).1 rfl (by decide),
   (c6_invalid_config_rejected rustCryptoCreate ⟨[66], [98], 2, 0, none, none⟩
      ⟨[], [], fun _ _ => 0⟩).2 (by decide) (by decide)⟩

/-- C5 counterexample: a batch containing two well-formed shares that
decode to different salt fields, but with a malformed share between
them, fails with the share-format error instead of the
'shares from different secrets' error. -/
theorem c5_counterexample :
    WellFormedShare (magicStr ++ 124 :: ([65] ++ 124 :: [66])) = true ∧
    WellFormedShare (magicStr ++ 124 :: ([67] ++ 124 :: [66])) = true ∧
    saltFieldOf (magicStr ++ 124 :: ([65] ++ 124 :: [66])) ≠
      saltFieldOf (magicStr ++ 124 :: ([67] ++ 124 :: [66])) ∧
    restoreSecret ⟨[magicStr ++ 124 :: ([65] ++ 124 :: [66]), [120],
        magicStr ++ 124 :: ([67] ++ 124 :: [66])], [97], none⟩ =
      Except.error CErr.invalidShareFormat ∧
    CErr.invalidShareFormat ≠ CErr.inconsistentSalts := by
  decide

/-- C5 (amended): for every batch in which every share is well-formed and
two shares decode to different salt fields, restore fails with the
'shares from different secrets' error; the result is the same for every
combine step and native backend, so it happens before any cryptography. -/
theorem c5_salt_mismatch_rejected (cf : CombineFn) (rf : RestoreFn)
    (shares : List Str) (pw : Str) (kf : Option Str)
    (hwf : ∀ s ∈ shares, WellFormedShare s = true)
    (hmm : ∃ s1 ∈ shares, ∃ s2 ∈ shares, saltFieldOf s1 ≠ saltFieldOf s2) :
    restoreSecretWith cf rf ⟨shares, pw, kf⟩ =
      Except.error CErr.inconsistentSalts := by
  obtain ⟨s1, hs1, s2, hs2, hne12⟩ := hmm
  cases shares with
  | nil => simp at hs1
  | cons sh0 rest =>
    unfold restoreSecretWith
    rw [if_neg (by simp)]
    rw [parseSharesGo_wf sh0 rest none [] (hwf sh0 (by simp))]
    rw [if_neg (by simp)]
    have hex : ∃ s ∈ rest, saltFieldOf s ≠ saltFieldOf sh0 := by
      by_cases h1 : saltFieldOf s1 = saltFieldOf sh0
      · have h2 : saltFieldOf s2 ≠ saltFieldOf sh0 := fun hq => hne12 (h1.trans hq.symm)
        rcases List.mem_cons.mp hs2 with rfl | hs2r
        · exact absurd rfl h2
        · exact ⟨s2, hs2r, h2⟩
      · rcases List.mem_cons.mp hs1 with rfl | hs1r
        · exact absurd rfl h1
        · exact ⟨s1, hs1r, h1⟩
    rw [parseSharesGo_mismatch rest (saltFieldOf sh0) _
      (fun s hs => hwf s (by simp [hs])) hex]
    rfl

theorem c5_witness :
    restoreSecretWith combineLib rustCryptoRestore
      ⟨[magicStr ++ 124 :: ([65] ++ 124 :: [66]),
        magicStr ++ 124 :: ([67] ++ 124 :: [66])], [97], none⟩ =
      Except.error CErr.inconsistentSalts :=
  c5_salt_mismatch_rejected combineLib rustCryptoRestore _ [97] none
    (by decide) (by decide)

/-- C4: every share string produced by `createShares` has the exact
three-field form `MAGIC|base64(salt)|base64(fragment)` with the magic
literal `seQRets`, and `restoreSecret` raises the share-format error on
any input share string that does not split into exactly 3 pipe-delimited
fields whose first field equals the magic literal. -/
theorem c4_share_format (req : CreateSharesRequest) (rand : Randomness)
    (s : Str) (rest : List Str) (pw : Str) (kf : Option Str)
    (hok : (createShares req rand).isOk = true)
    (hbad : WellFormedShare s = false) :
    (sharesOf (createShares req rand)).all
      (shareShapeOkWith (b64encode (norm16 rand.salt))) = true ∧
    restoreSecret ⟨s :: rest, pw, kf⟩ = Except.error CErr.invalidShareFormat := by
  constructor
  · obtain ⟨hshape, _⟩ := createShares_ok_shape req rand hok
    rw [hshape]
    rw [show sharesOf (Except.ok
      ⟨((List.range req.totalShares).map
          (shareFrag (rustCryptoCreate (buildSharePayload req.secret req.label)
            req.password req.keyfile rand).2 req.requiredShares rand.coeffs)).map
        (fun f => magicStr ++ 124 ::
          (b64encode (norm16 rand.salt) ++ 124 :: b64encode f)),
        req.totalShares, req.requiredShares, req.label,
        (b64encode (norm16 rand.salt)).take 8⟩) =
      ((List.range req.totalShares).map
          (shareFrag (rustCryptoCreate (buildSharePayload req.secret req.label)
            req.password req.keyfile rand).2 req.requiredShares rand.coeffs)).map
        (fun f => magicStr ++ 124 ::
          (b64encode (norm16 rand.salt) ++ 124 :: b64encode f)) from rfl]
    rw [List.all_eq_true]
    intro s' hs'
    obtain ⟨f, _, rfl⟩ := List.mem_map.mp hs'
    unfold shareShapeOkWith WellFormedShare saltFieldOf
    rw [splitPipe_share (b64encode_no_pipe _) (b64encode_no_pipe _)]
    simp
  · unfold restoreSecret restoreSecretWith
    rw [if_neg (by simp)]
    rw [parseSharesGo_bad s rest none [] hbad]
    rfl

theorem c4_witness :
    (sharesOf (createShares ⟨[72, 105], [97], 3, 2, none, none⟩
        ⟨[], [], fun _ _ => 0⟩)).all
      (shareShapeOkWith (b64encode (norm16 ([] : Str)))) = true ∧
    restoreSecret ⟨[[120]], [97], none⟩ = Except.error CErr.invalidShareFormat :=
  c4_share_format ⟨[72, 105], [97], 3, 2, none, none⟩ ⟨[], [], fun _ _ => 0⟩
    [120] [] [97] none (by decide) (by decide)

/-- C8: for every successful `createShares` call, the returned `setId`
equals the first 8 characters of the base64 form of the salt, and every
share string in the returned set carries that identical base64 salt as
its second field. -/
theorem c8_set_id_and_salt (req : CreateSharesRequest) (rand : Randomness)
    (hok : (createShares req rand).isOk = true) :
    setIdOf (createShares req rand) = (b64encode (norm16 rand.salt)).take 8 ∧
    (sharesOf (createShares req rand)).all
      (fun s => saltFieldOf s == b64encode (norm16 rand.salt)) = true := by
  obtain ⟨hshape, _⟩ := createShares_ok_shape req rand hok
  constructor
  · rw [hshape]
    rfl
  · rw [hshape]
    rw [List.all_eq_true]
    intro s' hs'
    have hs'' : s' ∈ ((List.range req.totalShares).map
        (shareFrag (rustCryptoCreate (buildSharePayload req.secret req.label)
          req.password req.keyfile rand).2 req.requiredShares rand.coeffs)).map
        (fun f => magicStr ++ 124 ::
          (b64encode (norm16 rand.salt) ++ 124 :: b64encode f)) := hs'
    obtain ⟨f, _, rfl⟩ := List.mem_map.mp hs''
    unfold saltFieldOf
    rw [splitPipe_share (b64encode_no_pipe _) (b64encode_no_pipe _)]
    simp

theorem c8_witness :
    setIdOf (createShares ⟨[72, 105], [97], 3, 2, none, none⟩
        ⟨[], [], fun _ _ => 0⟩) = (b64encode (norm16 ([] : Str))).take 8 ∧
    (sharesOf (createShares ⟨[72, 105], [97], 3, 2, none, none⟩
        ⟨[], [], fun _ _ => 0⟩)).all
      (fun s => saltFieldOf s == b64encode (norm16 ([] : Str))) = true :=
  c8_set_id_and_salt ⟨[72, 105], [97], 3, 2, none, none⟩ ⟨[], [], fun _ _ => 0⟩
    (by decide)

/-- The result of the share-validation loop on a batch. -/
def parsedOf (shares : List Str) : Except CErr (Str × List Str) :=
  parseSharesGo shares none []

/-- The base64 salt extracted from a batch (empty on parse failure). -/
def saltOfBatch (shares : List Str) : Str :=
  match parsedOf shares with
  | Except.ok p => p.1
  | Except.error _ => []

/-- The decoded share fragments of a batch (empty on parse failure). -/
def fragsOfBatch (shares : List Str) : List Str :=
  match parsedOf shares with
  | Except.ok p => p.2
  | Except.error _ => []

/-- The combine step applied to a batch's fragments. -/
def combinedOf (shares : List Str) : Except Unit Str :=
  combineLib (fragsOfBatch shares)

/-- The buffer reconstructed from a batch (empty on combine failure). -/
def combinedBuf (shares : List Str) : Str :=
  match combinedOf shares with
  | Except.ok b => b
  | Except.error _ => []

/-- C3: every authentication-category failure during restore — that is,
every run in which the shares parse and combine but the native
decrypt step fails (wrong password, wrong or missing keyfile,
corrupted or insufficiently reconstructed data, tampering) — is reported
to the caller as the one generic authentication error constructor,
carrying no information about the cause. -/
theorem c3_auth_failures_generic (shares : List Str) (pw : Str) (kf : Option Str)
    (h0 : shares ≠ [])
    (h1 : (parsedOf shares).isOk = true)
    (h2 : (combinedOf shares).isOk = true)
    (h3 : rustCryptoRestore (saltOfBatch shares) (combinedBuf shares) pw kf =
      Except.error ()) :
    restoreSecret ⟨shares, pw, kf⟩ = Except.error CErr.authError := by
  unfold restoreSecret restoreSecretWith
  rw [if_neg h0]
  cases hp : parseSharesGo shares none [] with
  | error e =>
    unfold parsedOf at h1
    rw [hp] at h1
    exact Bool.noConfusion h1
  | ok p =>
    obtain ⟨salt, frags⟩ := p
    have hfrags : fragsOfBatch shares = frags := by
      unfold fragsOfBatch parsedOf
      rw [hp]
    have hsalt : saltOfBatch shares = salt := by
      unfold saltOfBatch parsedOf
      rw [hp]
    simp only [hp, except_bind_ok]
    cases hc : combineLib frags with
    | error e =>
      unfold combinedOf at h2
      rw [hfrags, hc] at h2
      exact Bool.noConfusion h2
    | ok buf =>
      have hbuf : combinedBuf shares = buf := by
        unfold combinedBuf combinedOf
        rw [hfrags, hc]
      rw [hsalt, hbuf] at h3
      simp only [hc, except_mapError_ok, except_bind_ok, h3,
        except_mapError_error, except_bind_error]

theorem c3_witness :
    restoreSecret ⟨sharesOf (createShares ⟨[65], [97], 1, 1, none, none⟩
      ⟨[], [], fun _ _ => 0⟩), [98], none⟩ = Except.error CErr.authError :=
  c3_auth_failures_generic _ [98] none (by decide) (by decide) (by decide)
    (by decide)

/-- C10: `encryptVault` invokes the underlying blob cipher with an empty
keyfile (its output is the version-2 wrapper around the blob cipher run
with keyfile `some []`, which coincides with `none`), `decryptVault`
likewise passes no keyfile, and consequently an encrypted vault file is
decryptable with the vault password alone — regardless of any keyfile
used by the share set whose export `json` wraps. -/
theorem c10_vault_empty_keyfile (json pw salt data : Str) (rand : Randomness) :
    encryptVault json pw rand =
      ⟨2, true, (rustEncryptBlobI json pw (some []) rand).1,
        (rustEncryptBlobI json pw (some []) rand).2⟩ ∧
    decryptVault salt data pw = rustDecryptBlobI salt data pw none ∧
    decryptVault (encryptVault json pw rand).salt
      (encryptVault json pw rand).data pw = Except.ok json := by
  refine ⟨rfl, rfl, ?_⟩
  exact rustDecryptBlobI_encryptBlobI json pw none rand

/-- C7: for every vault JSON string and password, `encryptVault` produces
a record of shape `{version: 2, encrypted: true, salt, data}`, decrypting
that salt and data with the same password reproduces the exact JSON
string, and decrypting with any other password yields the authentication
failure. -/
theorem c7_vault_roundtrip (json pw pw' : Str) (rand : Randomness)
    (hne : pw' ≠ pw) :
    (encryptVault json pw rand).version = 2 ∧
    (encryptVault json pw rand).encrypted = true ∧
    decryptVault (encryptVault json pw rand).salt
      (encryptVault json pw rand).data pw = Except.ok json ∧
    decryptVault (encryptVault json pw rand).salt
      (encryptVault json pw rand).data pw' = Except.error () := by
  refine ⟨rfl, rfl, ?_, ?_⟩
  · exact rustDecryptBlobI_encryptBlobI json pw none rand
  · exact rustDecryptBlobI_wrong_password json pw pw' none rand hne

theorem c7_witness :
    (encryptVault [123, 125] [97] ⟨[], [], fun _ _ => 0⟩).version = 2 ∧
    (encryptVault [123, 125] [97] ⟨[], [], fun _ _ => 0⟩).encrypted = true ∧
    decryptVault (encryptVault [123, 125] [97] ⟨[], [], fun _ _ => 0⟩).salt
      (encryptVault [123, 125] [97] ⟨[], [], fun _ _ => 0⟩).data [97] =
      Except.ok [123, 125] ∧
    decryptVault (encryptVault [123, 125] [97] ⟨[], [], fun _ _ => 0⟩).salt
      (encryptVault [123, 125] [97] ⟨[], [], fun _ _ => 0⟩).data [98] =
      Except.error () :=
  c7_vault_roundtrip [123, 125] [97] [98] ⟨[], [], fun _ _ => 0⟩ (by decide)

/-- C1: for every secret, password, optional keyfile and share
configuration accepted by `createShares` (in particular any
`1 ≤ T ≤ N` the library supports), restoring from any subset of at least
`T` of the produced share strings with the same password and keyfile
returns the original secret (and label) exactly. -/
theorem c1_roundtrip (req : CreateSharesRequest) (rand : Randomness) (sel : List Nat)
    (hsec : ByteOk req.secret) (hlab : ByteOkO req.label)
    (hok : (createShares req rand).isOk = true)
    (hnd : sel.Nodup) (hmem : ∀ i ∈ sel, i < req.totalShares)
    (hT : req.requiredShares ≤ sel.length) :
    restoreSecret ⟨sel.map (fun i => (sharesOf (createShares req rand)).getD i []),
      req.password, req.keyfile⟩ = Except.ok ⟨req.secret, req.label⟩ := by
  obtain ⟨hshape, hT1, hTN, hN255⟩ := createShares_ok_shape req rand hok
  have hsh : sharesOf (createShares req rand) =
      ((List.range req.totalShares).map
        (shareFrag (sealedOf req rand) req.requiredShares rand.coeffs)).map
        (fun f => magicStr ++ 124 ::
          (b64encode (norm16 rand.salt) ++ 124 :: b64encode f)) := by
    rw [hshape]
    rfl
  have hsel_eq : sel.map (fun i => (sharesOf (createShares req rand)).getD i []) =
      (sel.map (fun i =>
        b64encode (shareFrag (sealedOf req rand) req.requiredShares rand.coeffs i))).map
        (fun d => magicStr ++ 124 :: (b64encode (norm16 rand.salt) ++ 124 :: d)) := by
    rw [hsh, List.map_map, List.map_map]
    apply List.map_congr_left
    intro i hi
    simp only [Function.comp_apply]
    rw [getD_map_range _ _ _ (hmem i hi)]
    rfl
  obtain ⟨i0, sel', hself⟩ : ∃ a l, sel = a :: l := by
    cases sel with
    | nil => simp at hT; omega
    | cons a l => exact ⟨a, l, rfl⟩
  unfold restoreSecret restoreSecretWith
  simp only [hsel_eq]
  rw [if_neg (by rw [hself]; simp)]
  rw [hself, List.map_cons]
  have hd_nopipe : ∀ d ∈ b64encode (shareFrag (sealedOf req rand)
      req.requiredShares rand.coeffs i0) :: sel'.map (fun i =>
        b64encode (shareFrag (sealedOf req rand) req.requiredShares rand.coeffs i)),
      124 ∉ d := by
    intro d hd
    rcases List.mem_cons.mp hd with rfl | hd2
    · exact b64encode_no_pipe _
    · obtain ⟨i, _, rfl⟩ := List.mem_map.mp hd2
      exact b64encode_no_pipe _
  rw [parseSharesGo_encoded_start _ (b64encode_no_pipe _) _ _ hd_nopipe]
  simp only [except_bind_ok]
  have hdec : ((b64encode (shareFrag (sealedOf req rand)
      req.requiredShares rand.coeffs i0) :: sel'.map (fun i =>
        b64encode (shareFrag (sealedOf req rand) req.requiredShares
          rand.coeffs i))).map b64decodeL) =
      (i0 :: sel').map
        (fun i => shareFrag (sealedOf req rand) req.requiredShares rand.coeffs i) := by
    simp only [List.map_cons, List.map_map]
    rw [b64_roundtrip _ (shareFrag_byteOk _ _ _ _)]
    congr 1
    apply List.map_congr_left
    intro i _
    simp only [Function.comp_apply]
    exact b64_roundtrip _ (shareFrag_byteOk _ _ _ _)
  rw [hdec]
  have hsplitok : shamirSplitLib (sealedOf req rand) req.totalShares
      req.requiredShares rand.coeffs = Except.ok
        ((List.range req.totalShares).map
          (shareFrag (sealedOf req rand) req.requiredShares rand.coeffs)) := by
    unfold shamirSplitLib
    rw [if_pos ⟨hT1, hTN, hN255⟩]
  have hsealByteOk : ByteOk (sealedOf req rand) :=
    rustCryptoCreate_byteOk _ _ _ _ (buildSharePayload_byteOk _ _ hsec hlab)
  have hcomb := combineLib_shamirSplitLib (sealedOf req rand) hsealByteOk
    req.totalShares req.requiredShares rand.coeffs _ hsplitok sel hnd hmem hT
  have hfragsgetD : sel.map (fun i =>
      (((List.range req.totalShares).map
        (shareFrag (sealedOf req rand) req.requiredShares rand.coeffs))).getD i []) =
      (i0 :: sel').map
        (fun i => shareFrag (sealedOf req rand) req.requiredShares rand.coeffs i) := by
    rw [← hself]
    apply List.map_congr_left
    intro i hi
    exact getD_map_range _ _ _ (hmem i hi)
  rw [hfragsgetD] at hcomb
  simp only [hcomb, except_mapError_ok, except_bind_ok]
  have hrest : rustCryptoRestore (b64encode (norm16 rand.salt)) (sealedOf req rand)
      req.password req.keyfile = Except.ok (buildSharePayload req.secret req.label) := by
    simp only [rustCryptoRestore]
    rw [b64_roundtrip _ (norm16_byteOk _)]
    have hseal : sealedOf req rand = norm24 rand.nonce ++
        (xorKs (derive req.password req.keyfile (norm16 rand.salt))
            (norm24 rand.nonce) (compress (buildSharePayload req.secret req.label)) ++
          macBytes (derive req.password req.keyfile (norm16 rand.salt))
            (norm24 rand.nonce)
            (xorKs (derive req.password req.keyfile (norm16 rand.salt))
              (norm24 rand.nonce)
              (compress (buildSharePayload req.secret req.label)))) := rfl
    rw [hseal, aeadOpen_seal _ _ _ (norm24_length _)]
    exact decompress_compress _
  simp only [hrest, except_mapError_ok, except_bind_ok]
  rw [parseSharePayload_build]
  rfl

/-- Inversion of a successful AEAD open: the tag of the buffer is the
recomputed tag over its parsed nonce and ciphertext, and the plaintext is
the keystream XOR of that ciphertext. -/
theorem aeadOpen_some_inv (key buf pt : Str) (h : aeadOpen key buf = some pt) :
    macBytes key (buf.take 24) ((buf.drop 24).take ((buf.drop 24).length - 16)) =
      (buf.drop 24).drop ((buf.drop 24).length - 16) ∧
    pt = xorKs key (buf.take 24) ((buf.drop 24).take ((buf.drop 24).length - 16)) := by
  unfold aeadOpen at h
  split at h
  · exact absurd h (by simp)
  · simp only [] at h
    split at h
    · rename_i htag
      exact ⟨htag, (Option.some.inj h).symm⟩
    · exact absurd h (by simp)

/-- The share strings of a create result selected by a list of indices. -/
def selectedShares (req : CreateSharesRequest) (rand : Randomness)
    (sel : List Nat) : List Str :=
  sel.map (fun i => (sharesOf (createShares req rand)).getD i [])

/-- C2 counterexample: a 2-of-2 split whose (externally supplied) share
randomness happens to be degenerate — all polynomial tail coefficients
zero — restores the exact original secret from a single share, i.e. from
exactly `T - 1 = 1` shares, with neither a combine failure nor an AEAD
failure. -/
theorem c2_counterexample :
    (createShares ⟨[65], [97], 2, 2, none, none⟩ ⟨[], [], fun _ _ => 0⟩).isOk
      = true ∧
    restoreSecret ⟨[(sharesOf (createShares ⟨[65], [97], 2, 2, none, none⟩
        ⟨[], [], fun _ _ => 0⟩)).getD 0 []], [97], none⟩ =
      Except.ok ⟨[65], none⟩ := by
  constructor
  · decide
  · decide

/-- The symmetric key derived inside the modelled native backend for a
create request. -/
def keyOf (req : CreateSharesRequest) (rand : Randomness) : Str :=
  derive req.password req.keyfile (norm16 rand.salt)

/-- The ciphertext part of the sealed buffer of a create request. -/
def ctOf (req : CreateSharesRequest) (rand : Randomness) : Str :=
  xorKs (keyOf req rand) (norm24 rand.nonce)
    (compress (buildSharePayload req.secret req.label))

theorem sealedOf_parts (req : CreateSharesRequest) (rand : Randomness) :
    sealedOf req rand = norm24 rand.nonce ++
      (ctOf req rand ++
        macBytes (keyOf req rand) (norm24 rand.nonce) (ctOf req rand)) := rfl

/-- C2 (amended): supplying exactly `T - 1` shares (`T ≥ 2`) either fails
structurally at combine — reported as the combine error, distinct from an
authentication failure — or proceeds to the AEAD open step with the
reconstructed buffer; whenever that buffer retains the original 24-byte
nonce but is not identical to the sealed blob, restore never returns the
original secret.  (The original claim's "never yields the correct
plaintext" is refuted by the degenerate-randomness counterexample, where
the reconstruction equals the sealed blob exactly.) -/
theorem c2_threshold_near_miss (req : CreateSharesRequest) (rand : Randomness)
    (sel : List Nat)
    (hok : (createShares req rand).isOk = true)
    (hnd : sel.Nodup) (hmem : ∀ i ∈ sel, i < req.totalShares)
    (hT2 : 2 ≤ req.requiredShares)
    (hlen : sel.length = req.requiredShares - 1) :
    (combinedOf (selectedShares req rand sel) = Except.error () →
      restoreSecret ⟨selectedShares req rand sel, req.password, req.keyfile⟩ =
        Except.error CErr.combineError) ∧
    (combinedOf (selectedShares req rand sel) ≠ Except.error () →
      (combinedBuf (selectedShares req rand sel)).take 24 =
        (sealedOf req rand).take 24 →
      combinedBuf (selectedShares req rand sel) ≠ sealedOf req rand →
      restoreSecret ⟨selectedShares req rand sel, req.password, req.keyfile⟩ ≠
        Except.ok ⟨req.secret, req.label⟩) := by
  obtain ⟨hshape, hT1, hTN, hN255⟩ := createShares_ok_shape req rand hok
  have hsh : sharesOf (createShares req rand) =
      ((List.range req.totalShares).map
        (shareFrag (sealedOf req rand) req.requiredShares rand.coeffs)).map
        (fun f => magicStr ++ 124 ::
          (b64encode (norm16 rand.salt) ++ 124 :: b64encode f)) := by
    rw [hshape]
    rfl
  have hsel_eq : selectedShares req rand sel =
      (sel.map (fun i =>
        b64encode (shareFrag (sealedOf req rand) req.requiredShares rand.coeffs i))).map
        (fun d => magicStr ++ 124 :: (b64encode (norm16 rand.salt) ++ 124 :: d)) := by
    unfold selectedShares
    rw [hsh, List.map_map, List.map_map]
    apply List.map_congr_left
    intro i hi
    simp only [Function.comp_apply]
    rw [getD_map_range _ _ _ (hmem i hi)]
    rfl
  obtain ⟨i0, sel', hself⟩ : ∃ a l, sel = a :: l := by
    cases sel with
    | nil => simp at hlen; omega
    | cons a l => exact ⟨a, l, rfl⟩
  have hd_nopipe : ∀ d ∈ b64encode (shareFrag (sealedOf req rand)
      req.requiredShares rand.coeffs i0) :: sel'.map (fun i =>
        b64encode (shareFrag (sealedOf req rand) req.requiredShares rand.coeffs i)),
      124 ∉ d := by
    intro d hd
    rcases List.mem_cons.mp hd with rfl | hd2
    · exact b64encode_no_pipe _
    · obtain ⟨i, _, rfl⟩ := List.mem_map.mp hd2
      exact b64encode_no_pipe _
  have hdec : ((b64encode (shareFrag (sealedOf req rand)
      req.requiredShares rand.coeffs i0) :: sel'.map (fun i =>
        b64encode (shareFrag (sealedOf req rand) req.requiredShares
          rand.coeffs i))).map b64decodeL) =
      (i0 :: sel').map
        (fun i => shareFrag (sealedOf req rand) req.requiredShares rand.coeffs i) := by
    simp only [List.map_cons, List.map_map]
    rw [b64_roundtrip _ (shareFrag_byteOk _ _ _ _)]
    congr 1
    apply List.map_congr_left
    intro i _
    simp only [Function.comp_apply]
    exact b64_roundtrip _ (shareFrag_byteOk _ _ _ _)
  have hparse : parseSharesGo (selectedShares req rand sel) none [] =
      Except.ok (b64encode (norm16 rand.salt), (i0 :: sel').map
        (fun i => shareFrag (sealedOf req rand) req.requiredShares rand.coeffs i)) := by
    rw [hsel_eq, hself, List.map_cons]
    rw [parseSharesGo_encoded_start _ (b64encode_no_pipe _) _ _ hd_nopipe]
    rw [hdec]
  have hfrags : fragsOfBatch (selectedShares req rand sel) =
      (i0 :: sel').map
        (fun i => shareFrag (sealedOf req rand) req.requiredShares rand.coeffs i) := by
    unfold fragsOfBatch parsedOf
    rw [hparse]
  have hne : selectedShares req rand sel ≠ [] := by
    rw [hsel_eq, hself]
    simp
  constructor
  · intro hcomb
    have hcomb' : combineLib ((i0 :: sel').map
        (fun i => shareFrag (sealedOf req rand) req.requiredShares rand.coeffs i)) =
        Except.error () := by
      unfold combinedOf at hcomb
      rw [hfrags] at hcomb
      exact hcomb
    unfold restoreSecret restoreSecretWith
    rw [if_neg hne]
    simp only [hparse, except_bind_ok, hcomb', except_mapError_error,
      except_bind_error]
  · intro hcne htake hneq hok2
    obtain ⟨B, hB⟩ : ∃ B, combineLib ((i0 :: sel').map
        (fun i => shareFrag (sealedOf req rand) req.requiredShares rand.coeffs i)) =
        Except.ok B := by
      cases hc : combineLib ((i0 :: sel').map
          (fun i => shareFrag (sealedOf req rand) req.requiredShares rand.coeffs i)) with
      | error e =>
        exfalso
        apply hcne
        unfold combinedOf
        rw [hfrags, hc]
      | ok b => exact ⟨b, rfl⟩
    have hBbuf : combinedBuf (selectedShares req rand sel) = B := by
      unfold combinedBuf combinedOf
      rw [hfrags, hB]
    unfold restoreSecret restoreSecretWith at hok2
    rw [if_neg hne] at hok2
    simp only [hparse, except_bind_ok, hB, except_mapError_ok] at hok2
    cases hr : rustCryptoRestore (b64encode (norm16 rand.salt)) B
        req.password req.keyfile with
    | error e =>
      rw [hr, except_mapError_error, except_bind_error] at hok2
      exact Except.noConfusion hok2
    | ok json' =>
      rw [hr, except_mapError_ok, except_bind_ok] at hok2
      cases hpp : parseSharePayload json' with
      | error e =>
        rw [hpp, except_mapError_error] at hok2
        exact Except.noConfusion hok2
      | ok r =>
        rw [hpp, except_mapError_ok] at hok2
        have hrr := Except.ok.inj hok2
        subst hrr
        have hjson : json' = buildSharePayload req.secret req.label := by
          simpa using parseSharePayload_inj hpp
        have hkey : b64decodeL (b64encode (norm16 rand.salt)) = norm16 rand.salt :=
          b64_roundtrip _ (norm16_byteOk _)
        simp only [rustCryptoRestore, hkey] at hr
        cases haeo : aeadOpen (derive req.password req.keyfile (norm16 rand.salt)) B with
        | none =>
          rw [haeo] at hr
          exact Except.noConfusion hr
        | some pt =>
          rw [haeo] at hr
          have hpt : pt = compress json' := decompress_ok_inj hr
          obtain ⟨htag, hptx⟩ := aeadOpen_some_inv _ _ _ haeo
          rw [hBbuf] at htake hneq
          have hseal24 : (sealedOf req rand).take 24 = norm24 rand.nonce := by
            rw [sealedOf_parts]
            rw [show (24 : Nat) = (norm24 rand.nonce).length from
              (norm24_length _).symm]
            exact List.take_left _ _
          have hnonceB : B.take 24 = norm24 rand.nonce := by
            rw [htake, hseal24]
          rw [hnonceB] at hptx htag
          have hctB : (B.drop 24).take ((B.drop 24).length - 16) = ctOf req rand := by
            have h1 : xorKs (keyOf req rand) (norm24 rand.nonce) pt =
                (B.drop 24).take ((B.drop 24).length - 16) := by
              simp only [keyOf]
              rw [hptx, xorKs_xorKs]
            rw [← h1, hpt, hjson]
            rfl
          have hBeq : B = sealedOf req rand := by
            have hsplit1 : B = B.take 24 ++ B.drop 24 := (List.take_append_drop _ _).symm
            have hsplit2 : B.drop 24 =
                (B.drop 24).take ((B.drop 24).length - 16) ++
                  (B.drop 24).drop ((B.drop 24).length - 16) :=
              (List.take_append_drop _ _).symm
            conv_lhs => rw [hsplit1]
            rw [hsplit2, ← htag, hnonceB, hctB, sealedOf_parts]
            rfl
          exact hneq hBeq

theorem c1_witness :
    restoreSecret ⟨[0, 2].map (fun i =>
        (sharesOf (createShares ⟨[72, 105], [97], 3, 2, none, none⟩
          ⟨[], [], fun _ _ => 0⟩)).getD i []),
      [97], none⟩ = Except.ok ⟨[72, 105], none⟩ :=
  c1_roundtrip ⟨[72, 105], [97], 3, 2, none, none⟩ ⟨[], [], fun _ _ => 0⟩
    [0, 2] (by decide) (by decide) (by decide) (by decide) (by decide)
    (by decide)

theorem c2_witness :
    restoreSecret ⟨selectedShares ⟨[65], [97], 3, 3, none, none⟩
        ⟨[], [], fun m _ => if m < 24 then 0 else 1⟩ [0, 1], [97], none⟩ ≠
      Except.ok ⟨[65], none⟩ :=
  (c2_threshold_near_miss ⟨[65], [97], 3, 3, none, none⟩
      ⟨[], [], fun m _ => if m < 24 then 0 else 1⟩ [0, 1]
      (by decide) (by decide) (by decide) (by decide) (by decide)).2
    (by decide) (by decide) (by decide)
